import Mathlib

/-!
Shallow embedding of the pythonhelper Vim plugin (gryf/pythonhelper).

Two python files are modelled:
  * `plugin/pythonhelper.py` — `PythonTag`, `SimplePythonTagsParser`
    (1-based line numbers), the module-level tag cache
    (`TAGS`/`TAGLINENUMBERS`/`BUFFERTICKS`), `get_nearest_line_index` and
    `find_tag`;
  * `ftplugin/python/pythonhelper.py` — `EvenSimplerPythonTagsParser`
    (0-based line numbers), the `PythonHelper.TAGS` cache and the
    resolution part of `PythonHelper._get_tag`.

A buffer line is a `List Char` (no trailing newline, as vim exposes it).
Python dicts become association lists, regexes are translated into their
matching semantics (anchored `re.match`, greedy with backtracking), and
exceptions become `Except`/`Option` values.
-/

/-- Characters matched by Python `str.isspace` and regex `\s` (ASCII range). -/
def pyIsSpace (c : Char) : Bool :=
  c == ' ' || c == '\t' || c == '\n' || c == '\r' || c == Char.ofNat 11 || c == Char.ofNat 12

/-- Characters of the regex character class `[ \t]`. -/
def isBlankChar (c : Char) : Bool := c == ' ' || c == '\t'

/-- One buffer line, as a list of characters. -/
abbrev Line := List Char

/-- The tag record (`PythonTag` in both python files). -/
structure PythonTag where
  tag_type : String
  name : Line
  full_name : Line
  line_number : Nat
  indent_level : Nat
deriving DecidableEq

/-- Python dict lookup over an association list whose newest binding comes
first (`d.get(k)` / `d[k]`). -/
def alistGet {κ α : Type} [DecidableEq κ] : List (κ × α) → κ → Option α
  | [], _ => none
  | (k, v) :: d, k' => if k' = k then some v else alistGet d k'

/-- Python dict assignment `d[k] = v`; the new binding shadows any older one. -/
def alistPut {κ α : Type} [DecidableEq κ] (d : List (κ × α)) (k : κ) (v : α) :
    List (κ × α) :=
  (k, v) :: d

/-- Subscript access `d[k]` under the invariant that the key is present; the
default is never reached at the call sites below. -/
def alistGetD {κ α : Type} [DecidableEq κ] (d : List (κ × α)) (k : κ) (dflt : α) : α :=
  (alistGet d k).getD dflt

/-- Matching semantics of an anchored Python regex `KW[ \t]+([^S]+).*` (with
`S` the stop characters), as used by `CLASS_RE`, `METHOD_RE` and the tail of
`RE_TAG_TYPE`: after the literal keyword, the greedy `[ \t]+` backtracks by
one when the character after the blanks cannot open the capture group, in
which case the group captures the last blank.  Returns group 1. -/
def kwCapture (kw : Line) (stop : Char → Bool) (s : Line) : Option Line :=
  if s.take kw.length = kw then
    let t := s.drop kw.length
    let bs := t.takeWhile isBlankChar
    if bs.length = 0 then none
    else
      match t.drop bs.length with
      | c :: rest =>
        if stop c then
          if 2 ≤ bs.length then some [bs.getLastD ' '] else none
        else some ((c :: rest).takeWhile (fun x => !stop x))
      | [] => if 2 ≤ bs.length then some [bs.getLastD ' '] else none
  else none

namespace SimplePythonTagsParser

/-- `TABSIZE = 8`. -/
def TABSIZE : Nat := 8

/-- Group 1 of `COMMENTS_INDENT_RE` (`([ \t]*)([^\n#]*).*`): the indentation
characters of the line. -/
def indentCharsOf (l : Line) : Line := l.takeWhile isBlankChar

/-- Group 2 of `COMMENTS_INDENT_RE`: the line content after the indentation,
truncated at a comment marker or newline. -/
def contentOf (l : Line) : Line :=
  (l.drop (indentCharsOf l).length).takeWhile (fun c => !(c == '\n' || c == '#'))

/-- Which of the two tag regexes matched. -/
inductive Kw where
  | classKw
  | defKw
deriving DecidableEq

/-- The matching done by the `get_tags` loop: `CLASS_RE`
(`class[ \t]+([^(:]+).*`) tried on the line content first, then `METHOD_RE`
(`def[ \t]+([^(]+).*`). -/
def classify (l : Line) : Option (Kw × Line) :=
  match kwCapture ("class".toList) (fun c => c == '(' || c == ':') (contentOf l) with
  | some n => some (Kw.classKw, n)
  | none =>
    match kwCapture ("def".toList) (fun c => c == '(') (contentOf l) with
    | some n => some (Kw.defKw, n)
    | none => none

/-- `compute_indentation_level`: tabs expand to `TABSIZE`, any other
indentation character counts one. -/
def compute_indentation_level (indent_chars : Line) : Nat :=
  indent_chars.foldl (fun acc c => if c = '\t' then acc + TABSIZE else acc + 1) 0

/-- The while loop of `get_python_tag`: pop every open tag whose indentation
level is not strictly below the new tag's.  The stack keeps its top at the
head of the list. -/
def popStack (lvl : Nat) : List PythonTag → List PythonTag
  | [] => []
  | t :: ts => if lvl ≤ t.indent_level then popStack lvl ts else t :: ts

/-- `tag_class_type_deciding_method`. -/
def tag_class_type_deciding_method (_ : Option String) : String := "class"

/-- `tag_function_type_deciding_method`: method iff the parent tag is a
class. -/
def tag_function_type_deciding_method (parent_tag_type : Option String) : String :=
  if parent_tag_type = some "class" then "method" else "function"

/-- `get_python_tag`: pop the stack, build the tag against the remaining
parent (if any), push it; returns the new tag and the updated stack. -/
def get_python_tag (tags_stack : List PythonTag) (line_number : Nat)
    (indent_chars : Line) (tag_name : Line)
    (decide_type : Option String → String) : PythonTag × List PythonTag :=
  let lvl := compute_indentation_level indent_chars
  let popped := popStack lvl tags_stack
  let tag : PythonTag :=
    match popped with
    | parent :: _ =>
      { tag_type := decide_type (some parent.tag_type), name := tag_name,
        full_name := parent.full_name ++ '.' :: tag_name,
        line_number := line_number, indent_level := lvl }
    | [] =>
      { tag_type := decide_type none, name := tag_name, full_name := tag_name,
        line_number := line_number, indent_level := lvl }
  (tag, tag :: popped)

/-- The loop state of `get_tags`: current 1-based line number, the
accumulated `tag_line_numbers` list, the `tags` dict (in insertion order)
and the stack of open tags. -/
structure ScanState where
  line_number : Nat
  tag_line_numbers : List Nat
  tags : List (Nat × PythonTag)
  tags_stack : List PythonTag
deriving DecidableEq

/-- Initial state: line numbering starts at 1 (`itertools.count(1)`). -/
def initState : ScanState := ⟨1, [], [], []⟩

/-- One iteration of the `get_tags` loop over one source line. -/
def step (st : ScanState) (l : Line) : ScanState :=
  match classify l with
  | none => { st with line_number := st.line_number + 1 }
  | some (kw, n) =>
    let decide_type :=
      match kw with
      | Kw.classKw => tag_class_type_deciding_method
      | Kw.defKw => tag_function_type_deciding_method
    let tagStack := get_python_tag st.tags_stack st.line_number (indentCharsOf l) n decide_type
    { line_number := st.line_number + 1,
      tag_line_numbers := st.tag_line_numbers ++ [st.line_number],
      tags := st.tags ++ [(st.line_number, tagStack.1)],
      tags_stack := tagStack.2 }

/-- Folding the scan over the remaining source lines. -/
def scanFrom (st : ScanState) : List Line → ScanState
  | [] => st
  | l :: ls => scanFrom (step st l) ls

/-- `SimplePythonTagsParser.get_tags`: the `(tag_line_numbers, tags)` pair. -/
def get_tags (source : List Line) : List Nat × List (Nat × PythonTag) :=
  ((scanFrom initState source).tag_line_numbers, (scanFrom initState source).tags)

end SimplePythonTagsParser

/-- `vim_buffer_iterator`: the parser's source appends a newline to every
buffer line. -/
def vim_buffer_iterator (lines : List Line) : List Line :=
  lines.map (fun l => l ++ ['\n'])

namespace EvenSimplerPythonTagsParser

/-- Length of group 1 of `RE_INDENT` (`([ \t]*).*`). -/
def indentLevelOf (l : Line) : Nat := (l.takeWhile isBlankChar).length

/-- `RE_TAG_TYPE` (`\s*(def|class)[ \t]+([^(:]+).*`) on the raw line:
returns group 1 (the keyword) and group 2 (the name). -/
def classify (l : Line) : Option (String × Line) :=
  let r := l.dropWhile pyIsSpace
  match kwCapture ("def".toList) (fun c => c == '(' || c == ':') r with
  | some n => some ("def", n)
  | none =>
    match kwCapture ("class".toList) (fun c => c == '(' || c == ':') r with
    | some n => some ("class", n)
    | none => none

/-- The stack-popping `for` loop of `get_tags`: it runs `fuel` iterations
(the stack length at entry), each popping the top while its indentation is
not below the new tag's, and breaks when the stack empties. -/
def popLoop (lvl : Nat) : Nat → List PythonTag → List PythonTag
  | 0, st => st
  | fuel + 1, st =>
    let st' :=
      match st with
      | t :: ts => if lvl ≤ t.indent_level then ts else st
      | [] => st
    match st' with
    | [] => []
    | _ => popLoop lvl fuel st'

/-- Last dot-separated component (`full_name.split(".")[-1]`, computed by
`PythonTag.__init__`). -/
def lastComponent (l : Line) : Line :=
  (l.reverse.takeWhile (fun c => !(c == '.'))).reverse

/-- `EvenSimplerPythonTagsParser._get_full_name`. -/
def get_full_name (tags_stack : List PythonTag) (n : Line) : Line :=
  match tags_stack with
  | parent :: _ => parent.full_name ++ '.' :: n
  | [] => n

/-- `EvenSimplerPythonTagsParser._get_tag_type`, applied to the keyword the
tag was created with and the popped stack. -/
def get_tag_type (tagType : String) (tags_stack : List PythonTag) : String :=
  if tagType = "class" then "class"
  else
    match tags_stack with
    | parent :: _ => if parent.tag_type = "class" then "method" else "function"
    | [] => "function"

/-- Loop state of the ftplugin `get_tags`: 0-based line counter and the
`OrderedDict` of tags (insertion order), plus the stack of open tags. -/
structure ScanState where
  line_no : Nat
  tags : List (Nat × PythonTag)
  tags_stack : List PythonTag
deriving DecidableEq

/-- Initial state: `enumerate` starts at 0. -/
def initState : ScanState := ⟨0, [], []⟩

/-- One iteration of the ftplugin `get_tags` loop. -/
def step (st : ScanState) (l : Line) : ScanState :=
  match classify l with
  | none => { st with line_no := st.line_no + 1 }
  | some (kwStr, n) =>
    let lvl := indentLevelOf l
    let popped := popLoop lvl st.tags_stack.length st.tags_stack
    let full := get_full_name popped n
    let tag : PythonTag :=
      { tag_type := get_tag_type kwStr popped, name := lastComponent full,
        full_name := full, line_number := st.line_no, indent_level := lvl }
    { line_no := st.line_no + 1, tags := st.tags ++ [(st.line_no, tag)],
      tags_stack := tag :: popped }

/-- Folding the ftplugin scan over the remaining lines. -/
def scanFrom (st : ScanState) : List Line → ScanState
  | [] => st
  | l :: ls => scanFrom (step st l) ls

/-- `EvenSimplerPythonTagsParser.get_tags` over the buffer lines. -/
def get_tags (lines : List Line) : List (Nat × PythonTag) :=
  (scanFrom initState lines).tags

end EvenSimplerPythonTagsParser

/-- The index list produced by `xrange(a, b)`. -/
def pyRange (a b : Nat) : List Nat := List.range' a (b - a)

/-- The loop of `get_nearest_line_index`; `idx` is the enumeration counter,
`nLn`/`nIdx` the running nearest line number and its index (both start at
`-1`).  The loop breaks as soon as a tag line reaches the cursor row. -/
def gnliLoop (row : Nat) : List Nat → Int → Int → Int → Int
  | [], _, _, nIdx => nIdx
  | ln :: rest, idx, nLn, nIdx =>
    let upd := nLn < (ln : Int) ∧ (ln : Int) ≤ (row : Int)
    let nLn' := if upd then (ln : Int) else nLn
    let nIdx' := if upd then idx else nIdx
    if (row : Int) ≤ (ln : Int) then nIdx'
    else gnliLoop row rest (idx + 1) nLn' nIdx'

/-- `get_nearest_line_index`: index into `tag_line_numbers` of the nearest
tag line at or before the cursor row, `-1` when there is none. -/
def get_nearest_line_index (row : Nat) (tag_line_numbers : List Nat) : Int :=
  gnliLoop row tag_line_numbers 0 (-1) (-1)

/-- One line of the validation loop in `find_tag` (plugin lines 327-362):
does this buffer line invalidate a candidate tag of indentation `ind`?
Empty lines, whitespace-only lines and comment lines never do; any other
line invalidates exactly when its (tab-expanded) indentation is at most
`ind`. -/
def lineInvalidates (l : Line) (ind : Nat) : Bool :=
  if l.length = 0 then false
  else
    let ws := l.takeWhile pyIsSpace
    let line_start :=
      ws.foldl (fun a c => if c = '\t' then a + SimplePythonTagsParser.TABSIZE else a + 1) 0
    if ws.length = l.length then false
    else
      match (l.drop ws.length).head? with
      | some c => if c = '#' then false else decide (line_start ≤ ind)
      | none => false

/-- The validation walk of `find_tag`: visit the buffer indices
`xrange(nearest_line_number + 1, row)` in order; an index beyond the buffer
raises `IndexError` (modelled as `Except.error ()`), an invalidating line
yields `ok false`, exhausting the walk yields `ok true`. -/
def validate (lines : List Line) (ind : Nat) : List Nat → Except Unit Bool
  | [] => .ok true
  | j :: rest =>
    match lines.get? j with
    | none => .error ()
    | some l => if lineInvalidates l ind then .ok false else validate lines ind rest

/-- The candidate-retry while loop of `find_tag`; the `Nat` argument is
`nearest_line_index + 1`, so `0` encodes index `-1` ("no applicable tag").
Failed dict or list accesses are modelled as `Except.error` (the
exceptions the surrounding handler would catch). -/
def candidateLoop (lines : List Line) (tag_line_numbers : List Nat)
    (tags : List (Nat × PythonTag)) (row : Nat) : Nat → Except Unit (Option PythonTag)
  | 0 => .ok none
  | i + 1 =>
    match tag_line_numbers.get? i with
    | none => .error ()
    | some ln =>
      match alistGet tags ln with
      | none => .error ()
      | some tag =>
        match validate lines tag.indent_level (pyRange (ln + 1) row) with
        | .error e => .error e
        | .ok true => .ok (some tag)
        | .ok false => candidateLoop lines tag_line_numbers tags row i

/-- Core of `find_tag` after the tags are obtained: candidate selection and
validation.  `Except.error ()` marks an exception reaching the catch-all
handler. -/
def find_tag_core (lines : List Line) (row : Nat) (tag_line_numbers : List Nat)
    (tags : List (Nat × PythonTag)) : Except Unit (Option PythonTag) :=
  candidateLoop lines tag_line_numbers tags row
    (get_nearest_line_index row tag_line_numbers + 1).toNat

/-- `find_tag` on a freshly parsed buffer (the cache step set aside): the
parser runs over the buffer lines with newlines appended, the resolver walks
the raw buffer lines; the catch-all `except` collapses an exception into the
empty result. -/
def find_tag (lines : List Line) (row : Nat) : Option PythonTag :=
  let tl := SimplePythonTagsParser.get_tags (vim_buffer_iterator lines)
  match find_tag_core lines row tl.1 tl.2 with
  | .error _ => none
  | .ok r => r

/-- Python list subscripting with negative-index wrapping
(`vim.current.buffer[i]`); `none` models `IndexError`. -/
def pyGet {α : Type} (xs : List α) (i : Int) : Option α :=
  if 0 ≤ i then xs.get? i.toNat
  else if -(xs.length : Int) ≤ i then xs.get? ((xs.length : Int) + i).toNat
  else none

/-- Test `not line.strip()`: the line has no visible character. -/
def stripIsEmpty (l : Line) : Bool := l.all pyIsSpace

/-- Indices visited by the upward blank-skipping loop of
`PythonHelper._get_tag` (ftplugin lines 185-198), starting at `row - 1` and
decreasing; the list is long enough that an index raising `IndexError` is
always reached before it runs out. -/
def startIndices (row len : Nat) : List Int :=
  (List.range (row + len + 1)).map (fun i : Nat => (row : Int) - 1 - (i : Int))

/-- The upward walk to the first line with visible content; `none` models
the `IndexError` branch returning `None`. -/
def findContentLine (lines : List Line) : List Int → Option (Int × Line)
  | [] => none
  | i :: rest =>
    match pyGet lines i with
    | none => none
    | some l => if stripIsEmpty l then findContentLine lines rest else some (i, l)

/-- Dict lookup `tags.get(line_number)` with a possibly negative key:
the dict keys are 0-based naturals, so negative keys always miss. -/
def tagAtInt (tags : List (Nat × PythonTag)) (i : Int) : Option PythonTag :=
  if 0 ≤ i then alistGet tags i.toNat else none

/-- The descending index list `range(n, 0, -1)` (never reaches 0). -/
def downTo1 (n : Int) : List Nat :=
  if n ≤ 0 then [] else (List.range n.toNat).map (fun i => n.toNat - i)

/-- The downward scan of `PythonHelper._get_tag` (ftplugin lines 208-227)
over `range(line_number - 1, 0, -1)`; `cur` is the running value of the
`tag` variable, returned when the loop exhausts. -/
def scanUp (lines : List Line) (tags : List (Nat × PythonTag))
    (line_indent : Nat) (cur : Option PythonTag) : List Nat → Option PythonTag
  | [] => cur
  | ln0 :: rest =>
    let tag := alistGet tags ln0
    let l := lines.getD ln0 []
    let u := (l.takeWhile isBlankChar).length
    if tag.isSome ∧ u < line_indent then tag
    else if stripIsEmpty l then scanUp lines tags line_indent tag rest
    else if u = 0 then none
    else if line_indent ≤ u then scanUp lines tags line_indent tag rest
    else
      match tag with
      | some t =>
        if line_indent ≤ t.indent_level then scanUp lines tags line_indent none rest
        else scanUp lines tags line_indent tag rest
      | none => scanUp lines tags line_indent tag rest

/-- The resolution part of `PythonHelper._get_tag` (after the cache step):
walk up from the cursor to visible content, answer directly on column-zero
content or a direct tag hit, otherwise scan upward for the nearest tag. -/
def ft_get_tag_resolve (lines : List Line) (tags : List (Nat × PythonTag))
    (row : Nat) : Option PythonTag :=
  match findContentLine lines (startIndices row lines.length) with
  | none => none
  | some (ln, l) =>
    let line_indent := (l.takeWhile isBlankChar).length
    let tag := tagAtInt tags ln
    if line_indent = 0 ∨ tag.isSome then tag
    else scanUp lines tags line_indent tag (downTo1 (ln - 1))

/-- The module-level cache of `plugin/pythonhelper.py`: `TAGS`,
`TAGLINENUMBERS` and `BUFFERTICKS`, keyed by buffer number. -/
structure PluginCacheState where
  TAGS : List (Nat × List (Nat × PythonTag))
  TAGLINENUMBERS : List (Nat × List Nat)
  BUFFERTICKS : List (Nat × Nat)
deriving DecidableEq

/-- Fresh cache (empty module dicts). -/
def emptyPluginCache : PluginCacheState := ⟨[], [], []⟩

/-- `plugin/pythonhelper.py get_tags`: return the cached pair when the
stored tick for this buffer equals `changed_tick`, else parse the buffer and
store the result under the buffer number.  The Bool reports whether the
parser ran. -/
def plugin_get_tags (st : PluginCacheState) (buffer_number changed_tick : Nat)
    (lines : List Line) :
    (List Nat × List (Nat × PythonTag)) × PluginCacheState × Bool :=
  if alistGet st.BUFFERTICKS buffer_number = some changed_tick then
    ((alistGetD st.TAGLINENUMBERS buffer_number [],
      alistGetD st.TAGS buffer_number []), st, false)
  else
    let tl := SimplePythonTagsParser.get_tags (vim_buffer_iterator lines)
    (tl,
     { TAGS := alistPut st.TAGS buffer_number tl.2,
       TAGLINENUMBERS := alistPut st.TAGLINENUMBERS buffer_number tl.1,
       BUFFERTICKS := alistPut st.BUFFERTICKS buffer_number changed_tick }, true)

/-- Keys of the ftplugin `PythonHelper.TAGS` dict: the code mixes integer
buffer numbers with the string literal `'buffer_number'`. -/
inductive PyKey where
  | num : Nat → PyKey
  | str : String → PyKey
deriving DecidableEq

/-- One `PythonHelper.TAGS` entry: `{'changed_tick': ..., 'tags': ...}`. -/
structure FtEntry where
  changed_tick : Nat
  tags : List (Nat × PythonTag)
deriving DecidableEq

/-- The caching step of `PythonHelper._get_tag` (ftplugin lines 172-179):
a hit requires an entry under the integer buffer number with the same tick;
a rebuild stores the fresh tags under the string literal `'buffer_number'`
(exactly as the code writes it).  The Bool reports whether the parser ran. -/
def ft_cache_step (cache : List (PyKey × FtEntry)) (buffer_number changed_tick : Nat)
    (lines : List Line) :
    List (Nat × PythonTag) × List (PyKey × FtEntry) × Bool :=
  let hit :=
    match alistGet cache (PyKey.num buffer_number) with
    | some e => if e.changed_tick = changed_tick then some e.tags else none
    | none => none
  match hit with
  | some tags => (tags, cache, false)
  | none =>
    let tags := EvenSimplerPythonTagsParser.get_tags lines
    (tags, alistPut cache (PyKey.str "buffer_number") ⟨changed_tick, tags⟩, true)

/-! ### Definitions used to state the claims -/

/-- Number of dot-separated components of a dotted name
(`len(full_name.split("."))`). -/
def dotComponents (l : Line) : Nat := l.count '.' + 1

/-- The nesting-depth bookkeeping claimed for the stack (claim C6): the tag
at depth `k` from the bottom has `k` dot-separated components in its full
name. -/
def stackComps : List PythonTag → Prop
  | [] => True
  | t :: ts => dotComponents t.full_name = ts.length + 1 ∧ stackComps ts

/-- A line whose extracted declaration name (if any) contains no dot. -/
def cleanLineB (l : Line) : Bool :=
  match SimplePythonTagsParser.classify l with
  | some (_, n) => n.all (fun c => !(c == '.'))
  | none => true

/-- Ftplugin counterpart of `cleanLineB`: the name `RE_TAG_TYPE` captures
from the line (if any) contains no dot. -/
def cleanLineFtB (l : Line) : Bool :=
  match EvenSimplerPythonTagsParser.classify l with
  | some (_, n) => n.all (fun c => !(c == '.'))
  | none => true

/-- First character of the line after its leading whitespace. -/
def firstContentChar (l : Line) : Option Char := (l.dropWhile pyIsSpace).head?

/-- Tab-expanded width of the line's leading whitespace (the `line_start`
computation of `find_tag`). -/
def pyIndentWidth (l : Line) : Nat :=
  (l.takeWhile pyIsSpace).foldl
    (fun a c => if c = '\t' then a + SimplePythonTagsParser.TABSIZE else a + 1) 0

/-- The resolver described by claim C2 as stated: for a candidate on
1-based line `ln`, examine exactly the source lines strictly between `ln`
and the cursor line `row` (0-based buffer indices `ln` through `row - 2`),
reject the candidate on any examined line of indentation at most the
candidate's, and retry with the previous entry of `tag_line_numbers`. -/
def c2ClaimLoop (lines : List Line) (tag_line_numbers : List Nat)
    (tags : List (Nat × PythonTag)) (row : Nat) : Nat → Option PythonTag
  | 0 => none
  | i + 1 =>
    match tag_line_numbers.get? i with
    | none => none
    | some ln =>
      match alistGet tags ln with
      | none => none
      | some tag =>
        if (pyRange ln (row - 1)).all
            (fun j => !lineInvalidates (lines.getD j []) tag.indent_level)
        then some tag
        else c2ClaimLoop lines tag_line_numbers tags row i

/-- Claim C2's resolver applied to a freshly parsed buffer. -/
def c2ClaimResolve (lines : List Line) (row : Nat) : Option PythonTag :=
  let tl := SimplePythonTagsParser.get_tags (vim_buffer_iterator lines)
  c2ClaimLoop lines tl.1 tl.2 row (get_nearest_line_index row tl.1 + 1).toNat

/-- The resolver described by the amended claim C2: identical to
`c2ClaimLoop` except that the examined window is the buffer indices
strictly between `ln` and `row` (1-based lines `ln + 2` through `row`),
exactly the indices `xrange(ln + 1, row)` the code visits. -/
def c2AmendedLoop (lines : List Line) (tag_line_numbers : List Nat)
    (tags : List (Nat × PythonTag)) (row : Nat) : Nat → Option PythonTag
  | 0 => none
  | i + 1 =>
    match tag_line_numbers.get? i with
    | none => none
    | some ln =>
      match alistGet tags ln with
      | none => none
      | some tag =>
        if (pyRange (ln + 1) row).all
            (fun j => !lineInvalidates (lines.getD j []) tag.indent_level)
        then some tag
        else c2AmendedLoop lines tag_line_numbers tags row i

/-- Keyword string of a plugin-parser match. -/
def kwName : SimplePythonTagsParser.Kw → String
  | SimplePythonTagsParser.Kw.classKw => "class"
  | SimplePythonTagsParser.Kw.defKw => "def"

/-- Well-formedness of one declaration body for the amended claim C10:
after the keyword's first blank, the name is the maximal run free of
`'('`, `':'` and blanks; it must be nonempty, dot-free and immediately
followed by `'('` (or also `':'` for a class). -/
def declOKB (s : Line) (isClass : Bool) : Bool :=
  let s' := s.dropWhile (· == ' ')
  let n := s'.takeWhile (fun c => !(c == '(' || c == ':' || c == ' '))
  !n.isEmpty && n.all (fun c => !(c == '.')) &&
    (match s'.drop n.length with
     | c :: _ => c == '(' || (isClass && c == ':')
     | [] => false)

/-- Hypothesis of the amended claim C10, per line: all whitespace is an
ASCII space, no `'#'` occurs, and any line opening with a declaration
keyword has the well-formed shape of `declOKB`. -/
def okLineB (l : Line) : Bool :=
  l.all (fun c => !(c == '#') && (!pyIsSpace c || c == ' ')) &&
    (let r := l.dropWhile (· == ' ')
     if r.take 6 = ("class ".toList) then declOKB (r.drop 6) true
     else if r.take 4 = ("def ".toList) then declOKB (r.drop 4) false
     else true)

/-- Field correspondence of claim C10 between a plugin tag `p` and an
ftplugin tag `f`: equal type, name, full name and indentation, with the
ftplugin 0-based line exactly one below the plugin 1-based line. -/
def tagMatch (p f : PythonTag) : Bool :=
  f.tag_type == p.tag_type && f.name == p.name && f.full_name == p.full_name
    && (f.line_number + 1 == p.line_number) && (f.indent_level == p.indent_level)

/-- Entry-wise correspondence of the two tag mappings (same order, keys
shifted by one). -/
def entriesMatch : List (Nat × PythonTag) → List (Nat × PythonTag) → Bool
  | [], [] => true
  | (k, p) :: ps, (k', f) :: fs => (k == k' + 1) && tagMatch p f && entriesMatch ps fs
  | _, _ => false

/-- Stack correspondence used while relating the two scans. -/
def stacksMatch : List PythonTag → List PythonTag → Bool
  | [], [] => true
  | p :: ps, f :: fs => tagMatch p f && stacksMatch ps fs
  | _, _ => false

/-- Scenario B of the spec: `def f():` / `    pass` / blank / `if True:` /
`    f()`. -/
def scenarioB : List Line :=
  [("def f():".toList), ("    pass".toList), ([] : Line),
   ("if True:".toList), ("    f()".toList)]

/-- Buffer separating the claimed validation window from the implemented
one: dedented code on line 2, indented code on line 3. -/
def exC2 : List Line :=
  [("def f():".toList), ("x = 1".toList), ("    y = 2".toList)]

/-- Buffer with a declaration followed by a fully blank trailing region. -/
def exC9 : List Line :=
  [([] : Line), ("def f():".toList), ("    pass".toList), ([] : Line), ([] : Line)]

/-- Two-line buffer used for the out-of-range cursor example. -/
def exShort : List Line := [("def f():".toList), ("    pass".toList)]

/-- A nested source, all of whose lines satisfy `okLineB`, used to witness
the amended parser-equivalence claim. -/
def exC10 : List Line :=
  [("class C:".toList), ("    def m(self):".toList), ("        pass".toList),
   ("def g():".toList), ("    return 1".toList)]

/-- A declaration whose name capture runs past a `:` without `(`: the two
parsers extract different names from it. -/
def exC10bad : List Line := [("def f:".toList)]

/-- The invariant claimed by C5: the stack of open tags is strictly
increasing in indentation from bottom to top (the list head is the top). -/
def StackOrdered : List PythonTag → Prop :=
  List.Chain' (fun a b => b.indent_level < a.indent_level)

/-- Invariant of the plugin scan: tag line numbers are strictly increasing,
agree with the keys of the tags mapping, and stay below the line counter. -/
def SPTagsInv (st : SimplePythonTagsParser.ScanState) : Prop :=
  List.Chain' (· < ·) st.tag_line_numbers ∧
    st.tags.map Prod.fst = st.tag_line_numbers ∧
    ∀ x ∈ st.tag_line_numbers, x < st.line_number

/-- Invariant of the ftplugin scan: the keys of the ordered tags dict are
strictly increasing and below the line counter. -/
def FTTagsInv (st : EvenSimplerPythonTagsParser.ScanState) : Prop :=
  List.Chain' (· < ·) (st.tags.map Prod.fst) ∧
    ∀ x ∈ st.tags.map Prod.fst, x < st.line_no

/-! ### General list helper lemmas -/

theorem dropWhile_of_takeWhile_nil {α : Type} {p : α → Bool} {l : List α}
    (h : l.takeWhile p = []) : l.dropWhile p = l := by
  cases l with
  | nil => rfl
  | cons a t =>
    by_cases hp : p a
    · simp [List.takeWhile, hp] at h
    · simp [List.dropWhile, hp]

theorem length_takeWhile_le' {α : Type} (p : α → Bool) (l : List α) :
    (l.takeWhile p).length ≤ l.length := by
  induction l with
  | nil => simp
  | cons a t ih =>
    by_cases hp : p a
    · simp only [List.takeWhile_cons, hp, if_true, List.length_cons]
      omega
    · simp [List.takeWhile_cons, hp]

theorem head?_dropWhile_false {α : Type} {p : α → Bool} {l : List α} {x : α}
    (h : (l.dropWhile p).head? = some x) : p x = false := by
  induction l with
  | nil => simp [List.dropWhile] at h
  | cons a t ih =>
    by_cases hp : p a
    · exact ih (by simpa [List.dropWhile, hp] using h)
    · simp [List.dropWhile, hp] at h
      simp [← h, hp]

theorem chain'_dropWhile {α : Type} {R : α → α → Prop} {p : α → Bool} {l : List α}
    (h : List.Chain' R l) : List.Chain' R (l.dropWhile p) := by
  induction l with
  | nil => simp [List.dropWhile]
  | cons a t ih =>
    by_cases hp : p a
    · simpa [List.dropWhile, hp] using ih (List.chain'_cons'.mp h).2
    · simpa [List.dropWhile, hp] using h

theorem chain'_lt_append_singleton {l : List Nat} {a : Nat}
    (h : List.Chain' (· < ·) l) (hb : ∀ x ∈ l, x < a) :
    List.Chain' (· < ·) (l ++ [a]) := by
  rw [List.chain'_append]
  refine ⟨h, List.chain'_singleton a, ?_⟩
  intro x hx y hy
  simp only [List.head?_cons, Option.mem_def, Option.some.injEq] at hy
  subst hy
  exact hb x (List.mem_of_mem_getLast? hx)

theorem drop_takeWhile_length {α : Type} (p : α → Bool) (l : List α) :
    l.drop (l.takeWhile p).length = l.dropWhile p := by
  induction l with
  | nil => rfl
  | cons a t ih =>
    by_cases hp : p a
    · simpa [List.takeWhile, List.dropWhile, hp] using ih
    · simp [List.takeWhile, List.dropWhile, hp]

theorem takeWhile_append_of_stop {α : Type} (p : α → Bool) {n : List α} {c : α}
    (rest : List α) (hn : ∀ x ∈ n, p x = true) (hc : p c = false) :
    (n ++ c :: rest).takeWhile p = n := by
  induction n with
  | nil => simp [List.takeWhile, hc]
  | cons a t ih =>
    have ha : p a = true := hn a (by simp)
    simp only [List.cons_append, List.takeWhile_cons, ha, if_true]
    rw [ih (fun x hx => hn x (by simp [hx]))]

theorem takeWhile_of_all {α : Type} {p : α → Bool} {l : List α}
    (h : ∀ x ∈ l, p x = true) : l.takeWhile p = l := by
  induction l with
  | nil => rfl
  | cons a t ih =>
    simp only [List.takeWhile_cons, h a (by simp), if_true]
    rw [ih (fun x hx => h x (by simp [hx]))]

theorem alistGet_put_same {κ α : Type} [DecidableEq κ] (d : List (κ × α)) (k : κ) (v : α) :
    alistGet (alistPut d k v) k = some v := by
  simp [alistGet, alistPut]

/-! ### Stack behaviour (claims C5, C3, C6 groundwork) -/

namespace SimplePythonTagsParser

theorem popStack_eq_dropWhile (lvl : Nat) (s : List PythonTag) :
    popStack lvl s = s.dropWhile (fun t => decide (lvl ≤ t.indent_level)) := by
  induction s with
  | nil => rfl
  | cons t ts ih =>
    by_cases h : lvl ≤ t.indent_level
    · simpa [popStack, List.dropWhile, h] using ih
    · simp [popStack, List.dropWhile, h]

theorem get_python_tag_snd (stack : List PythonTag) (ln : Nat) (ic n : Line)
    (d : Option String → String) :
    (get_python_tag stack ln ic n d).2
      = (get_python_tag stack ln ic n d).1
        :: stack.dropWhile (fun t => decide (compute_indentation_level ic ≤ t.indent_level)) := by
  simp [get_python_tag, popStack_eq_dropWhile]

theorem get_python_tag_indent (stack : List PythonTag) (ln : Nat) (ic n : Line)
    (d : Option String → String) :
    (get_python_tag stack ln ic n d).1.indent_level = compute_indentation_level ic := by
  cases h : popStack (compute_indentation_level ic) stack <;> simp [get_python_tag, h]

end SimplePythonTagsParser

namespace EvenSimplerPythonTagsParser

theorem popLoop_eq_dropWhile_aux (lvl : Nat) :
    ∀ (fuel : Nat) (s : List PythonTag),
      (s.takeWhile (fun t => decide (lvl ≤ t.indent_level))).length ≤ fuel →
      popLoop lvl fuel s = s.dropWhile (fun t => decide (lvl ≤ t.indent_level)) := by
  intro fuel
  induction fuel with
  | zero =>
    intro s hs
    have h0 : s.takeWhile (fun t => decide (lvl ≤ t.indent_level)) = [] :=
      List.eq_nil_of_length_eq_zero (Nat.le_zero.mp hs)
    simpa [popLoop] using (dropWhile_of_takeWhile_nil h0).symm
  | succ fuel ih =>
    intro s hs
    cases s with
    | nil => simp [popLoop, List.dropWhile]
    | cons t ts =>
      by_cases hp : lvl ≤ t.indent_level
      · have hdw : (t :: ts).dropWhile (fun t => decide (lvl ≤ t.indent_level))
            = ts.dropWhile (fun t => decide (lvl ≤ t.indent_level)) := by
          simp [List.dropWhile, hp]
        have hlen : (ts.takeWhile (fun t => decide (lvl ≤ t.indent_level))).length ≤ fuel := by
          have : ((t :: ts).takeWhile (fun t => decide (lvl ≤ t.indent_level))).length
              = (ts.takeWhile (fun t => decide (lvl ≤ t.indent_level))).length + 1 := by
            simp [List.takeWhile_cons, hp]
          omega
        rw [hdw]
        cases ts with
        | nil => simp [popLoop, hp, List.dropWhile]
        | cons u us =>
          have hred : popLoop lvl (fuel + 1) (t :: u :: us) = popLoop lvl fuel (u :: us) := by
            simp [popLoop, hp]
          rw [hred]
          exact ih _ hlen
      · have h0 : (t :: ts).takeWhile (fun t => decide (lvl ≤ t.indent_level)) = [] := by
          simp [List.takeWhile_cons, hp]
        have hred : popLoop lvl (fuel + 1) (t :: ts) = popLoop lvl fuel (t :: ts) := by
          simp [popLoop, hp]
        rw [hred, ih (t :: ts) (by simp [h0])]

theorem popLoop_eq_dropWhile (lvl : Nat) (s : List PythonTag) :
    popLoop lvl s.length s = s.dropWhile (fun t => decide (lvl ≤ t.indent_level)) :=
  popLoop_eq_dropWhile_aux lvl s.length s (length_takeWhile_le' _ _)

end EvenSimplerPythonTagsParser

theorem StackOrdered_push {stack : List PythonTag} {tag : PythonTag} {lvl : Nat}
    (hord : StackOrdered stack) (hlvl : tag.indent_level = lvl) :
    StackOrdered (tag :: stack.dropWhile (fun t => decide (lvl ≤ t.indent_level))) := by
  refine List.chain'_cons'.mpr ⟨?_, chain'_dropWhile hord⟩
  intro y hy
  have := head?_dropWhile_false (Option.mem_def.mp hy)
  simp only [decide_eq_false_iff_not, Nat.not_le] at this
  omega

theorem StackOrdered_sp_step {st : SimplePythonTagsParser.ScanState} (l : Line)
    (h : StackOrdered st.tags_stack) :
    StackOrdered (SimplePythonTagsParser.step st l).tags_stack := by
  unfold SimplePythonTagsParser.step
  cases hc : SimplePythonTagsParser.classify l with
  | none => simpa using h
  | some kn =>
    simp only
    rw [SimplePythonTagsParser.get_python_tag_snd]
    exact StackOrdered_push h (SimplePythonTagsParser.get_python_tag_indent _ _ _ _ _)

theorem StackOrdered_sp_scanFrom (st : SimplePythonTagsParser.ScanState)
    (ls : List Line) (h : StackOrdered st.tags_stack) :
    StackOrdered (SimplePythonTagsParser.scanFrom st ls).tags_stack := by
  induction ls generalizing st with
  | nil => simpa [SimplePythonTagsParser.scanFrom] using h
  | cons l ls ih =>
    exact ih _ (StackOrdered_sp_step l h)

theorem StackOrdered_ft_step {st : EvenSimplerPythonTagsParser.ScanState} (l : Line)
    (h : StackOrdered st.tags_stack) :
    StackOrdered (EvenSimplerPythonTagsParser.step st l).tags_stack := by
  unfold EvenSimplerPythonTagsParser.step
  cases hc : EvenSimplerPythonTagsParser.classify l with
  | none => simpa using h
  | some kn =>
    simp only [EvenSimplerPythonTagsParser.popLoop_eq_dropWhile]
    exact StackOrdered_push h rfl

theorem StackOrdered_ft_scanFrom (st : EvenSimplerPythonTagsParser.ScanState)
    (ls : List Line) (h : StackOrdered st.tags_stack) :
    StackOrdered (EvenSimplerPythonTagsParser.scanFrom st ls).tags_stack := by
  induction ls generalizing st with
  | nil => simpa [EvenSimplerPythonTagsParser.scanFrom] using h
  | cons l ls ih =>
    exact ih _ (StackOrdered_ft_step l h)

/-! ### Output ordering invariants (claim C4) -/

theorem SPTagsInv_step {st : SimplePythonTagsParser.ScanState} (l : Line)
    (h : SPTagsInv st) : SPTagsInv (SimplePythonTagsParser.step st l) := by
  obtain ⟨hchain, hkeys, hlt⟩ := h
  cases hc : SimplePythonTagsParser.classify l with
  | none =>
    simp only [SimplePythonTagsParser.step, hc]
    exact ⟨hchain, hkeys, fun x hx => Nat.lt_succ_of_lt (hlt x hx)⟩
  | some kn =>
    obtain ⟨kw, n⟩ := kn
    simp only [SimplePythonTagsParser.step, hc]
    refine ⟨chain'_lt_append_singleton hchain hlt, ?_, ?_⟩
    · simp [hkeys]
    · intro x hx
      rcases List.mem_append.mp hx with hx | hx
      · exact Nat.lt_succ_of_lt (hlt x hx)
      · simp only [List.mem_singleton] at hx
        subst hx
        show st.line_number < st.line_number + 1
        omega

theorem SPTagsInv_scanFrom (st : SimplePythonTagsParser.ScanState)
    (ls : List Line) (h : SPTagsInv st) :
    SPTagsInv (SimplePythonTagsParser.scanFrom st ls) := by
  induction ls generalizing st with
  | nil => simpa [SimplePythonTagsParser.scanFrom] using h
  | cons l ls ih => exact ih _ (SPTagsInv_step l h)

theorem FTTagsInv_step {st : EvenSimplerPythonTagsParser.ScanState} (l : Line)
    (h : FTTagsInv st) : FTTagsInv (EvenSimplerPythonTagsParser.step st l) := by
  obtain ⟨hchain, hlt⟩ := h
  cases hc : EvenSimplerPythonTagsParser.classify l with
  | none =>
    simp only [EvenSimplerPythonTagsParser.step, hc]
    exact ⟨hchain, fun x hx => Nat.lt_succ_of_lt (hlt x hx)⟩
  | some kn =>
    obtain ⟨kwStr, n⟩ := kn
    simp only [EvenSimplerPythonTagsParser.step, hc]
    constructor
    · simpa using chain'_lt_append_singleton hchain hlt
    · intro x hx
      simp only [List.map_append, List.map_cons, List.map_nil, List.mem_append,
        List.mem_singleton] at hx
      rcases hx with hx | hx
      · exact Nat.lt_succ_of_lt (hlt x hx)
      · subst hx
        show st.line_no < st.line_no + 1
        omega

theorem FTTagsInv_scanFrom (st : EvenSimplerPythonTagsParser.ScanState)
    (ls : List Line) (h : FTTagsInv st) :
    FTTagsInv (EvenSimplerPythonTagsParser.scanFrom st ls) := by
  induction ls generalizing st with
  | nil => simpa [EvenSimplerPythonTagsParser.scanFrom] using h
  | cons l ls ih => exact ih _ (FTTagsInv_step l h)

/-! ### Claim theorems: C4, C5 -/

/-- Claim C4: for every input line sequence, the builder's
`tag_line_numbers` is strictly increasing and its elements are exactly the
keys of the returned `tags` mapping in the same order (so the two are in
one-to-one correspondence and tags are produced in strictly increasing
line-number order); the ftplugin builder's ordered dict keys are likewise
strictly increasing. -/
theorem C4_tag_lines_sorted_and_bijective :
    (∀ source : List Line,
      List.Chain' (· < ·) (SimplePythonTagsParser.get_tags source).1 ∧
        (SimplePythonTagsParser.get_tags source).2.map Prod.fst
          = (SimplePythonTagsParser.get_tags source).1) ∧
    ∀ lines : List Line,
      List.Chain' (· < ·) ((EvenSimplerPythonTagsParser.get_tags lines).map Prod.fst) := by
  constructor
  · intro source
    have h := SPTagsInv_scanFrom SimplePythonTagsParser.initState source
      ⟨List.chain'_nil, rfl, by simp [SimplePythonTagsParser.initState]⟩
    exact ⟨h.1, h.2.1⟩
  · intro lines
    have h := FTTagsInv_scanFrom EvenSimplerPythonTagsParser.initState lines
      ⟨List.chain'_nil, by simp [EvenSimplerPythonTagsParser.initState]⟩
    exact h.1

/-- Claim C5: at every step of either builder's scan the stack of open tags
is strictly increasing in indentation from bottom to top, and a new
declaration at level `L` first pops every open tag of indentation at least
`L` (the plugin's while loop and the ftplugin's bounded for loop both
compute `dropWhile`), then attaches the new tag on the remaining stack; in
particular a sibling at equal indentation is popped, and a dedent below all
open tags empties the stack. -/
theorem C5_stack_monotone_and_pop_ge :
    (∀ source : List Line,
      StackOrdered
        (SimplePythonTagsParser.scanFrom SimplePythonTagsParser.initState source).tags_stack) ∧
    (∀ (stack : List PythonTag) (ln : Nat) (ic n : Line) (d : Option String → String),
      (SimplePythonTagsParser.get_python_tag stack ln ic n d).2
        = (SimplePythonTagsParser.get_python_tag stack ln ic n d).1
          :: stack.dropWhile
              (fun t => decide (SimplePythonTagsParser.compute_indentation_level ic ≤ t.indent_level))) ∧
    (∀ lines : List Line,
      StackOrdered
        (EvenSimplerPythonTagsParser.scanFrom EvenSimplerPythonTagsParser.initState lines).tags_stack) ∧
    ∀ (lvl : Nat) (stack : List PythonTag),
      EvenSimplerPythonTagsParser.popLoop lvl stack.length stack
        = stack.dropWhile (fun t => decide (lvl ≤ t.indent_level)) := by
  refine ⟨?_, ?_, ?_, ?_⟩
  · intro source
    exact StackOrdered_sp_scanFrom _ _ List.chain'_nil
  · exact SimplePythonTagsParser.get_python_tag_snd
  · intro lines
    exact StackOrdered_ft_scanFrom _ _ List.chain'_nil
  · exact EvenSimplerPythonTagsParser.popLoop_eq_dropWhile

/-! ### Claim theorems: C1, C7 -/

theorem alistGetD_put_same {κ α : Type} [DecidableEq κ] (d : List (κ × α)) (k : κ)
    (v : α) (dflt : α) : alistGetD (alistPut d k v) k dflt = v := by
  simp [alistGetD, alistGet_put_same]

/-- Claim C1 (settled as a code bug): the plugin `get_tags` does store its
result under the buffer number, so a repeated call with the same buffer and
tick returns the identical pair and does not rescan; but the ftplugin
`_get_tag` caching step stores the fresh result under the string literal
`'buffer_number'` instead of the buffer id, so at the failing input
(buffer 1, tick 7, twice) both calls rescan, no entry for buffer 1 ever
exists, and the claim's no-rescan guarantee fails. -/
theorem C1_plugin_cache_ok_ftplugin_cache_bug :
    (∀ (st : PluginCacheState) (b t : Nat) (lines : List Line),
      (plugin_get_tags (plugin_get_tags st b t lines).2.1 b t lines).2.2 = false ∧
        (plugin_get_tags (plugin_get_tags st b t lines).2.1 b t lines).1
          = (plugin_get_tags st b t lines).1) ∧
    (ft_cache_step [] 1 7 [("def f():".toList)]).2.2 = true ∧
    alistGet (ft_cache_step [] 1 7 [("def f():".toList)]).2.1 (PyKey.num 1) = none ∧
    (alistGet (ft_cache_step [] 1 7 [("def f():".toList)]).2.1
        (PyKey.str "buffer_number")).isSome = true ∧
    (ft_cache_step (ft_cache_step [] 1 7 [("def f():".toList)]).2.1 1 7
        [("def f():".toList)]).2.2 = true := by
  refine ⟨?_, by decide, by decide, by decide, by decide⟩
  intro st b t lines
  by_cases h : alistGet st.BUFFERTICKS b = some t
  · simp [plugin_get_tags, h]
  · simp [plugin_get_tags, h, alistGet_put_same, alistGetD_put_same]

/-- Claim C7: on scenario B (`def f():` / `    pass` / blank / `if True:` /
`    f()`), resolving the cursor on line 5 yields no tag in both
implementations: the `if True:` line at indentation 0 invalidates `f`. -/
theorem C7_scenario_B_resolves_none :
    find_tag scenarioB 5 = none ∧
    ft_get_tag_resolve scenarioB (EvenSimplerPythonTagsParser.get_tags scenarioB) 5 = none := by
  constructor
  · rfl
  · rfl

/-! ### Tag kind and full-name facts (claims C3, C6) -/

namespace SimplePythonTagsParser

theorem get_python_tag_name (stack : List PythonTag) (ln : Nat) (ic n : Line)
    (d : Option String → String) :
    (get_python_tag stack ln ic n d).1.name = n := by
  cases h : popStack (compute_indentation_level ic) stack <;> simp [get_python_tag, h]

theorem get_python_tag_full_name (stack : List PythonTag) (ln : Nat) (ic n : Line)
    (d : Option String → String) :
    (get_python_tag stack ln ic n d).1.full_name
      = match (stack.dropWhile
          (fun t => decide (compute_indentation_level ic ≤ t.indent_level))).head? with
        | some p => p.full_name ++ '.' :: n
        | none => n := by
  rw [← popStack_eq_dropWhile]
  cases h : popStack (compute_indentation_level ic) stack <;> simp [get_python_tag, h]

theorem get_python_tag_type_class (stack : List PythonTag) (ln : Nat) (ic n : Line) :
    (get_python_tag stack ln ic n tag_class_type_deciding_method).1.tag_type = "class" := by
  cases h : popStack (compute_indentation_level ic) stack <;>
    simp [get_python_tag, h, tag_class_type_deciding_method]

theorem get_python_tag_type_fun (stack : List PythonTag) (ln : Nat) (ic n : Line) :
    (get_python_tag stack ln ic n tag_function_type_deciding_method).1.tag_type
      = match (stack.dropWhile
          (fun t => decide (compute_indentation_level ic ≤ t.indent_level))).head? with
        | some p => if p.tag_type = "class" then "method" else "function"
        | none => "function" := by
  rw [← popStack_eq_dropWhile]
  cases h : popStack (compute_indentation_level ic) stack <;>
    simp [get_python_tag, h, tag_function_type_deciding_method]

end SimplePythonTagsParser

/-- Claim C3: a tag from a `class` declaration always has kind `class`; a
tag from a `def` declaration has kind `method` exactly when the tag left on
top of the stack after popping all tags of indentation at least the new
tag's is a class, and kind `function` otherwise (also when no parent
remains).  Stated for both parsers' scan steps. -/
theorem C3_kind_rules :
    (∀ (st : SimplePythonTagsParser.ScanState) (l : Line)
        (kw : SimplePythonTagsParser.Kw) (n : Line),
      SimplePythonTagsParser.classify l = some (kw, n) →
      ∃ t s', (SimplePythonTagsParser.step st l).tags_stack = t :: s' ∧
        s' = st.tags_stack.dropWhile
            (fun u => decide (SimplePythonTagsParser.compute_indentation_level
              (SimplePythonTagsParser.indentCharsOf l) ≤ u.indent_level)) ∧
        (kw = SimplePythonTagsParser.Kw.classKw → t.tag_type = "class") ∧
        (kw = SimplePythonTagsParser.Kw.defKw →
          t.tag_type = (match s'.head? with
            | some p => if p.tag_type = "class" then "method" else "function"
            | none => "function"))) ∧
    ∀ (st : EvenSimplerPythonTagsParser.ScanState) (l : Line) (kwStr : String) (n : Line),
      EvenSimplerPythonTagsParser.classify l = some (kwStr, n) →
      ∃ t s', (EvenSimplerPythonTagsParser.step st l).tags_stack = t :: s' ∧
        s' = st.tags_stack.dropWhile
            (fun u => decide (EvenSimplerPythonTagsParser.indentLevelOf l ≤ u.indent_level)) ∧
        (kwStr = "class" → t.tag_type = "class") ∧
        (kwStr = "def" →
          t.tag_type = (match s'.head? with
            | some p => if p.tag_type = "class" then "method" else "function"
            | none => "function")) := by
  constructor
  · intro st l kw n hc
    cases kw with
    | classKw =>
      simp only [SimplePythonTagsParser.step, hc]
      refine ⟨_, _, SimplePythonTagsParser.get_python_tag_snd _ _ _ _ _, rfl, ?_, ?_⟩
      · intro _
        exact SimplePythonTagsParser.get_python_tag_type_class _ _ _ _
      · intro h
        exact absurd h (by decide)
    | defKw =>
      simp only [SimplePythonTagsParser.step, hc]
      refine ⟨_, _, SimplePythonTagsParser.get_python_tag_snd _ _ _ _ _, rfl, ?_, ?_⟩
      · intro h
        exact absurd h (by decide)
      · intro _
        exact SimplePythonTagsParser.get_python_tag_type_fun _ _ _ _
  · intro st l kwStr n hc
    simp only [EvenSimplerPythonTagsParser.step, hc]
    refine ⟨_, _, rfl, EvenSimplerPythonTagsParser.popLoop_eq_dropWhile _ _, ?_, ?_⟩
    · intro hk
      subst hk
      simp [EvenSimplerPythonTagsParser.get_tag_type]
    · intro hk
      subst hk
      cases h : EvenSimplerPythonTagsParser.popLoop (EvenSimplerPythonTagsParser.indentLevelOf l)
          st.tags_stack.length st.tags_stack with
      | nil => simp [EvenSimplerPythonTagsParser.get_tag_type, h]
      | cons p ps => simp [EvenSimplerPythonTagsParser.get_tag_type, h]

/-- Witness for C3: a method tag created for `  def m(self):` under an open
class `C`. -/
theorem C3_kind_rules_witness :
    SimplePythonTagsParser.classify ("  def m(self):".toList)
        = some (SimplePythonTagsParser.Kw.defKw, ("m".toList : Line)) ∧
    ∃ t s',
      (SimplePythonTagsParser.step
          ⟨2, [1], [(1, ⟨"class", "C".toList, "C".toList, 1, 0⟩)],
            [⟨"class", "C".toList, "C".toList, 1, 0⟩]⟩
          ("  def m(self):".toList)).tags_stack = t :: s' ∧
        s' = ([⟨"class", "C".toList, "C".toList, 1, 0⟩] : List PythonTag).dropWhile
            (fun u => decide (SimplePythonTagsParser.compute_indentation_level
              (SimplePythonTagsParser.indentCharsOf ("  def m(self):".toList)) ≤ u.indent_level)) ∧
        (SimplePythonTagsParser.Kw.defKw = SimplePythonTagsParser.Kw.classKw → t.tag_type = "class") ∧
        (SimplePythonTagsParser.Kw.defKw = SimplePythonTagsParser.Kw.defKw →
          t.tag_type = (match s'.head? with
            | some p => if p.tag_type = "class" then "method" else "function"
            | none => "function")) :=
  ⟨by decide,
    C3_kind_rules.1
      ⟨2, [1], [(1, ⟨"class", "C".toList, "C".toList, 1, 0⟩)],
        [⟨"class", "C".toList, "C".toList, 1, 0⟩]⟩
      ("  def m(self):".toList) SimplePythonTagsParser.Kw.defKw ("m".toList)
      (by decide)⟩

/-! ### Full-name structure (claim C6) -/

theorem stackComps_tail_closed {p : PythonTag → Bool} {s : List PythonTag}
    (h : stackComps s) : stackComps (s.dropWhile p) := by
  induction s with
  | nil => exact h
  | cons t ts ih =>
    by_cases hp : p t
    · rw [show (t :: ts).dropWhile p = ts.dropWhile p from by simp [List.dropWhile, hp]]
      exact ih h.2
    · rw [show (t :: ts).dropWhile p = t :: ts from by simp [List.dropWhile, hp]]
      exact h

theorem dotComponents_of_not_mem {n : Line} (hn : '.' ∉ n) : dotComponents n = 1 := by
  simp [dotComponents, List.count_eq_zero.mpr hn]

theorem dotComponents_append_name {f n : Line} (hn : '.' ∉ n) :
    dotComponents (f ++ '.' :: n) = dotComponents f + 1 := by
  have h0 : n.count '.' = 0 := List.count_eq_zero.mpr hn
  simp [dotComponents, List.count_append, List.count_cons, h0]

theorem cleanLine_dot_not_mem {l : Line} {kw : SimplePythonTagsParser.Kw} {n : Line}
    (hc : SimplePythonTagsParser.classify l = some (kw, n))
    (hcl : cleanLineB l = true) : '.' ∉ n := by
  unfold cleanLineB at hcl
  rw [hc] at hcl
  intro hmem
  have := List.all_eq_true.mp hcl _ hmem
  simp at this

theorem stackComps_step {st : SimplePythonTagsParser.ScanState} {l : Line}
    (hcl : cleanLineB l = true) (h : stackComps st.tags_stack) :
    stackComps (SimplePythonTagsParser.step st l).tags_stack := by
  cases hc : SimplePythonTagsParser.classify l with
  | none => simpa [SimplePythonTagsParser.step, hc] using h
  | some kn =>
    obtain ⟨kw, n⟩ := kn
    have hdot : '.' ∉ n := cleanLine_dot_not_mem hc hcl
    simp only [SimplePythonTagsParser.step, hc]
    rw [SimplePythonTagsParser.get_python_tag_snd]
    set p := fun u : PythonTag =>
      decide (SimplePythonTagsParser.compute_indentation_level
        (SimplePythonTagsParser.indentCharsOf l) ≤ u.indent_level) with hp
    have hpopped : stackComps (st.tags_stack.dropWhile p) := stackComps_tail_closed h
    constructor
    · rw [SimplePythonTagsParser.get_python_tag_full_name]
      cases hd : (st.tags_stack.dropWhile p).head? with
      | none =>
        have : st.tags_stack.dropWhile p = [] := by
          cases hdw : st.tags_stack.dropWhile p with
          | nil => rfl
          | cons a b => rw [hdw] at hd; simp at hd
        simp only [this, List.length_nil]
        exact dotComponents_of_not_mem hdot
      | some parent =>
        obtain ⟨ps, hdw⟩ : ∃ ps, st.tags_stack.dropWhile p = parent :: ps := by
          cases hdw : st.tags_stack.dropWhile p with
          | nil => rw [hdw] at hd; simp at hd
          | cons a b =>
            rw [hdw] at hd
            simp only [List.head?_cons, Option.some.injEq] at hd
            exact ⟨b, by rw [hd]⟩
        rw [hdw] at hpopped
        rw [dotComponents_append_name hdot, hpopped.1, hdw]
        simp
    · exact hpopped

theorem stackComps_scanFrom (ls : List Line) (st : SimplePythonTagsParser.ScanState)
    (hclean : ∀ x ∈ ls, cleanLineB x = true) (h : stackComps st.tags_stack) :
    stackComps (SimplePythonTagsParser.scanFrom st ls).tags_stack := by
  induction ls generalizing st with
  | nil => exact h
  | cons l ls ih =>
    exact ih _ (fun x hx => hclean x (by simp [hx]))
      (stackComps_step (hclean l (by simp)) h)

theorem names_suffix_step {st : SimplePythonTagsParser.ScanState} (l : Line)
    (h : ∀ p ∈ st.tags, (p.2 : PythonTag).name <:+ p.2.full_name) :
    ∀ p ∈ (SimplePythonTagsParser.step st l).tags, (p.2 : PythonTag).name <:+ p.2.full_name := by
  cases hc : SimplePythonTagsParser.classify l with
  | none =>
    simp only [SimplePythonTagsParser.step, hc]
    exact h
  | some kn =>
    obtain ⟨kw, n⟩ := kn
    simp only [SimplePythonTagsParser.step, hc]
    intro p hp
    rcases List.mem_append.mp hp with hp | hp
    · exact h p hp
    · simp only [List.mem_singleton] at hp
      subst hp
      simp only
      rw [SimplePythonTagsParser.get_python_tag_name,
        SimplePythonTagsParser.get_python_tag_full_name]
      cases (st.tags_stack.dropWhile
          (fun t => decide (SimplePythonTagsParser.compute_indentation_level
            (SimplePythonTagsParser.indentCharsOf l) ≤ t.indent_level))).head? with
      | none => exact List.suffix_refl n
      | some parent => exact ⟨parent.full_name ++ ['.'], by simp⟩

theorem names_suffix_scanFrom (ls : List Line) (st : SimplePythonTagsParser.ScanState)
    (h : ∀ p ∈ st.tags, (p.2 : PythonTag).name <:+ p.2.full_name) :
    ∀ p ∈ (SimplePythonTagsParser.scanFrom st ls).tags,
      (p.2 : PythonTag).name <:+ p.2.full_name := by
  induction ls generalizing st with
  | nil => exact h
  | cons l ls ih => exact ih _ (names_suffix_step l h)

theorem lastComponent_suffix (l : Line) :
    EvenSimplerPythonTagsParser.lastComponent l <:+ l := by
  unfold EvenSimplerPythonTagsParser.lastComponent
  have h : (l.reverse.takeWhile (fun c => !(c == '.'))) <+: l.reverse :=
    List.takeWhile_prefix _
  simpa using List.reverse_suffix.mpr h

theorem get_full_name_head (stack : List PythonTag) (n : Line) :
    EvenSimplerPythonTagsParser.get_full_name stack n
      = match stack.head? with
        | some p => p.full_name ++ '.' :: n
        | none => n := by
  cases stack <;> rfl

theorem ft_names_step {st : EvenSimplerPythonTagsParser.ScanState} (l : Line)
    (h : ∀ p ∈ st.tags, (p.2 : PythonTag).name
      = EvenSimplerPythonTagsParser.lastComponent p.2.full_name) :
    ∀ p ∈ (EvenSimplerPythonTagsParser.step st l).tags,
      (p.2 : PythonTag).name = EvenSimplerPythonTagsParser.lastComponent p.2.full_name := by
  cases hc : EvenSimplerPythonTagsParser.classify l with
  | none =>
    simp only [EvenSimplerPythonTagsParser.step, hc]
    exact h
  | some kn =>
    obtain ⟨kwStr, n⟩ := kn
    simp only [EvenSimplerPythonTagsParser.step, hc]
    intro p hp
    rcases List.mem_append.mp hp with hp | hp
    · exact h p hp
    · simp only [List.mem_singleton] at hp
      subst hp
      rfl

theorem ft_names_scanFrom (ls : List Line) (st : EvenSimplerPythonTagsParser.ScanState)
    (h : ∀ p ∈ st.tags, (p.2 : PythonTag).name
      = EvenSimplerPythonTagsParser.lastComponent p.2.full_name) :
    ∀ p ∈ (EvenSimplerPythonTagsParser.scanFrom st ls).tags,
      (p.2 : PythonTag).name = EvenSimplerPythonTagsParser.lastComponent p.2.full_name := by
  induction ls generalizing st with
  | nil => exact h
  | cons l ls ih => exact ih _ (ft_names_step l h)

theorem cleanLineFt_dot_not_mem {l : Line} {kwStr : String} {n : Line}
    (hc : EvenSimplerPythonTagsParser.classify l = some (kwStr, n))
    (hcl : cleanLineFtB l = true) : '.' ∉ n := by
  unfold cleanLineFtB at hcl
  rw [hc] at hcl
  intro hmem
  have := List.all_eq_true.mp hcl _ hmem
  simp at this

theorem stackComps_ft_step {st : EvenSimplerPythonTagsParser.ScanState} {l : Line}
    (hcl : cleanLineFtB l = true) (h : stackComps st.tags_stack) :
    stackComps (EvenSimplerPythonTagsParser.step st l).tags_stack := by
  cases hc : EvenSimplerPythonTagsParser.classify l with
  | none => simpa [EvenSimplerPythonTagsParser.step, hc] using h
  | some kn =>
    obtain ⟨kwStr, n⟩ := kn
    have hdot : '.' ∉ n := cleanLineFt_dot_not_mem hc hcl
    simp only [EvenSimplerPythonTagsParser.step, hc]
    rw [EvenSimplerPythonTagsParser.popLoop_eq_dropWhile]
    have hpc : stackComps (st.tags_stack.dropWhile
        (fun t => decide (EvenSimplerPythonTagsParser.indentLevelOf l ≤ t.indent_level))) :=
      stackComps_tail_closed h
    refine ⟨?_, hpc⟩
    cases hpp : st.tags_stack.dropWhile
        (fun t => decide (EvenSimplerPythonTagsParser.indentLevelOf l ≤ t.indent_level)) with
    | nil =>
      show dotComponents (EvenSimplerPythonTagsParser.get_full_name [] n) = 1
      exact dotComponents_of_not_mem hdot
    | cons q qs =>
      rw [hpp] at hpc
      show dotComponents (EvenSimplerPythonTagsParser.get_full_name (q :: qs) n)
        = qs.length + 1 + 1
      show dotComponents (q.full_name ++ '.' :: n) = qs.length + 1 + 1
      rw [dotComponents_append_name hdot, hpc.1]

theorem stackComps_ft_scanFrom (ls : List Line) (st : EvenSimplerPythonTagsParser.ScanState)
    (hcl : ∀ x ∈ ls, cleanLineFtB x = true) (h : stackComps st.tags_stack) :
    stackComps (EvenSimplerPythonTagsParser.scanFrom st ls).tags_stack := by
  induction ls generalizing st with
  | nil => exact h
  | cons l ls ih =>
    exact ih _ (fun x hx => hcl x (by simp [hx]))
      (stackComps_ft_step (hcl l (by simp)) h)

/-- Amended claim C6, for both parsers: each produced tag's `full_name` is
`parent.full_name ++ "." ++ <captured name>` when a parent remains on the
stack and the captured name otherwise; `full_name` always ends with the
tag's `name` (in the ftplugin, `name` is the last dot-component of
`full_name`); and — provided no captured declaration name contains a dot —
the number of dot-separated components of `full_name` equals the tag's
open-stack depth (itself included) at creation time. -/
theorem C6_full_name_structure :
    (∀ (stack : List PythonTag) (ln : Nat) (ic n : Line) (d : Option String → String),
      (SimplePythonTagsParser.get_python_tag stack ln ic n d).1.name = n ∧
      (SimplePythonTagsParser.get_python_tag stack ln ic n d).1.full_name
        = match (stack.dropWhile
            (fun t => decide (SimplePythonTagsParser.compute_indentation_level ic ≤ t.indent_level))).head? with
          | some p => p.full_name ++ '.' :: n
          | none => n) ∧
    (∀ (source : List Line) (p : Nat × PythonTag),
      p ∈ (SimplePythonTagsParser.get_tags source).2 → p.2.name <:+ p.2.full_name) ∧
    (∀ (stack : List PythonTag) (n : Line),
      EvenSimplerPythonTagsParser.get_full_name stack n
        = match stack.head? with
          | some p => p.full_name ++ '.' :: n
          | none => n) ∧
    (∀ (lines : List Line) (p : Nat × PythonTag),
      p ∈ EvenSimplerPythonTagsParser.get_tags lines →
        p.2.name = EvenSimplerPythonTagsParser.lastComponent p.2.full_name ∧
          p.2.name <:+ p.2.full_name) ∧
    (∀ (pre : List Line) (l : Line),
      (∀ x ∈ pre ++ [l], cleanLineB x = true) →
      ∀ (kw : SimplePythonTagsParser.Kw) (n : Line),
        SimplePythonTagsParser.classify l = some (kw, n) →
        ∃ t s',
          (SimplePythonTagsParser.step
              (SimplePythonTagsParser.scanFrom SimplePythonTagsParser.initState pre) l).tags_stack
            = t :: s' ∧
          dotComponents t.full_name = s'.length + 1) ∧
    ∀ (pre : List Line) (l : Line),
      (∀ x ∈ pre ++ [l], cleanLineFtB x = true) →
      ∀ (kwStr : String) (n : Line),
        EvenSimplerPythonTagsParser.classify l = some (kwStr, n) →
        ∃ t s',
          (EvenSimplerPythonTagsParser.step
              (EvenSimplerPythonTagsParser.scanFrom EvenSimplerPythonTagsParser.initState pre)
              l).tags_stack
            = t :: s' ∧
          dotComponents t.full_name = s'.length + 1 := by
  refine ⟨?_, ?_, ?_, ?_, ?_, ?_⟩
  · intro stack ln ic n d
    exact ⟨SimplePythonTagsParser.get_python_tag_name _ _ _ _ _,
      SimplePythonTagsParser.get_python_tag_full_name _ _ _ _ _⟩
  · intro source p hp
    exact names_suffix_scanFrom source SimplePythonTagsParser.initState (by simp [SimplePythonTagsParser.initState]) p hp
  · intro stack n
    exact get_full_name_head stack n
  · intro lines p hp
    have heq := ft_names_scanFrom lines EvenSimplerPythonTagsParser.initState
      (by simp [EvenSimplerPythonTagsParser.initState]) p hp
    exact ⟨heq, heq ▸ lastComponent_suffix _⟩
  · intro pre l hclean kw n hc
    have hpre : stackComps
        (SimplePythonTagsParser.scanFrom SimplePythonTagsParser.initState pre).tags_stack :=
      stackComps_scanFrom pre SimplePythonTagsParser.initState
        (fun x hx => hclean x (by simp [hx])) trivial
    have hstep := stackComps_step (hclean l (by simp)) hpre
    cases hs : (SimplePythonTagsParser.step
        (SimplePythonTagsParser.scanFrom SimplePythonTagsParser.initState pre) l).tags_stack with
    | nil =>
      exfalso
      rw [SimplePythonTagsParser.step] at hs
      revert hs
      rw [hc]
      simp only
      rw [SimplePythonTagsParser.get_python_tag_snd]
      intro hs
      exact List.cons_ne_nil _ _ hs
    | cons t s' =>
      rw [hs] at hstep
      exact ⟨t, s', rfl, hstep.1⟩
  · intro pre l hclean kwStr n hc
    have hpre : stackComps
        (EvenSimplerPythonTagsParser.scanFrom EvenSimplerPythonTagsParser.initState pre).tags_stack :=
      stackComps_ft_scanFrom pre EvenSimplerPythonTagsParser.initState
        (fun x hx => hclean x (by simp [hx])) trivial
    have hstep := stackComps_ft_step (hclean l (by simp)) hpre
    cases hs : (EvenSimplerPythonTagsParser.step
        (EvenSimplerPythonTagsParser.scanFrom EvenSimplerPythonTagsParser.initState pre)
          l).tags_stack with
    | nil =>
      exfalso
      revert hs
      simp only [EvenSimplerPythonTagsParser.step, hc]
      intro hs
      exact List.cons_ne_nil _ _ hs
    | cons t s' =>
      rw [hs] at hstep
      exact ⟨t, s', rfl, hstep.1⟩

/-- Witness for C6's dot-count clauses in both parsers: `def m` nested
under `class C` yields `C.m`, two components at stack depth two. -/
theorem C6_full_name_structure_witness :
    ((∀ x ∈ [("class C:".toList)] ++ [("  def m(self):".toList)], cleanLineB x = true) ∧
      ∃ t s',
        (SimplePythonTagsParser.step
            (SimplePythonTagsParser.scanFrom SimplePythonTagsParser.initState
              [("class C:".toList)]) ("  def m(self):".toList)).tags_stack = t :: s' ∧
          dotComponents t.full_name = s'.length + 1) ∧
    (∀ x ∈ [("class C:".toList)] ++ [("    def m(self):".toList)], cleanLineFtB x = true) ∧
      ∃ t s',
        (EvenSimplerPythonTagsParser.step
            (EvenSimplerPythonTagsParser.scanFrom EvenSimplerPythonTagsParser.initState
              [("class C:".toList)]) ("    def m(self):".toList)).tags_stack = t :: s' ∧
          dotComponents t.full_name = s'.length + 1 :=
  ⟨⟨by decide,
    C6_full_name_structure.2.2.2.2.1 [("class C:".toList)] ("  def m(self):".toList)
      (by decide) SimplePythonTagsParser.Kw.defKw ("m".toList) (by decide)⟩,
   by decide,
    C6_full_name_structure.2.2.2.2.2 [("class C:".toList)] ("    def m(self):".toList)
      (by decide) "def" ("m".toList) (by decide)⟩

/-- Counterexample to claim C6 as stated, in both parsers.  Plugin: the
single line `class A.B:` produces a top-level tag (open-stack depth 1 at
creation: the whole stack is just this tag) whose `full_name` has two
dot-separated components.  Ftplugin: `class A.B:` nested under `class C:`
produces a tag at open-stack depth 2 whose `full_name` `C.A.B` has three
components and does not equal `parent.full_name ++ "." ++ name` (the tag's
`name` is the last component `B`, not the captured `A.B`). -/
theorem C6_counterexample_dotted_name :
    ((SimplePythonTagsParser.scanFrom SimplePythonTagsParser.initState
        [("class A.B:".toList)]).tags_stack
      = [⟨"class", "A.B".toList, "A.B".toList, 1, 0⟩] ∧
     dotComponents ("A.B".toList) = 2 ∧ ¬ dotComponents ("A.B".toList) = 1) ∧
    EvenSimplerPythonTagsParser.get_tags [("class C:".toList), ("    class A.B:".toList)]
      = [(0, ⟨"class", "C".toList, "C".toList, 0, 0⟩),
         (1, ⟨"class", "B".toList, "C.A.B".toList, 1, 4⟩)] ∧
    ¬ ("C.A.B".toList = "C".toList ++ '.' :: "B".toList) ∧
    dotComponents ("C.A.B".toList) = 3 ∧ ¬ dotComponents ("C.A.B".toList) = 2 := by
  refine ⟨⟨by decide, by decide, by decide⟩, by decide, by decide, by decide, by decide⟩

/-! ### Name extraction (claim C8) -/

theorem mem_takeWhile_pred {α : Type} {p : α → Bool} :
    ∀ {l : List α} {x : α}, x ∈ l.takeWhile p → p x = true := by
  intro l
  induction l with
  | nil => intro x hx; simp [List.takeWhile] at hx
  | cons a t ih =>
    intro x hx
    by_cases hp : p a
    · rw [List.takeWhile_cons, if_pos hp] at hx
      rcases List.mem_cons.mp hx with hx | hx
      · rw [hx]; exact hp
      · exact ih hx
    · simp [List.takeWhile_cons, hp] at hx

theorem dropLast_append_getLastD {α : Type} :
    ∀ (l : List α) (d : α), l ≠ [] → l.dropLast ++ [l.getLastD d] = l
  | [a], d, _ => by simp
  | a :: b :: u, d, _ => by
    have ih := dropLast_append_getLastD (b :: u) a (by simp)
    simp only [List.getLastD_cons] at ih ⊢
    rw [show (a :: b :: u).dropLast = a :: (b :: u).dropLast from rfl]
    simp only [List.cons_append]
    rw [ih]

/-- Soundness of the regex capture: a successful match decomposes the
subject into keyword, a nonempty blank run, the captured name (free of the
stop characters) and a tail that is empty or opens with a stop character. -/
theorem kwCapture_sound {kw : Line} {stop : Char → Bool} {s n : Line}
    (hb : ∀ c, isBlankChar c = true → stop c = false)
    (h : kwCapture kw stop s = some n) :
    (∀ c ∈ n, stop c = false) ∧
    ∃ bs t, s = kw ++ bs ++ n ++ t ∧ bs ≠ [] ∧ (∀ c ∈ bs, isBlankChar c = true) ∧
      (t = [] ∨ ∃ c t', t = c :: t' ∧ stop c = true) := by
  unfold kwCapture at h
  by_cases hkw : s.take kw.length = kw
  case neg => simp [hkw] at h
  rw [if_pos hkw] at h
  have hs : s = kw ++ s.drop kw.length := by
    conv_lhs => rw [← List.take_append_drop kw.length s]
    rw [hkw]
  set t0 := s.drop kw.length with ht0
  set bsF := t0.takeWhile isBlankChar with hbsF
  have ht0split : t0 = bsF ++ t0.drop bsF.length := by
    rw [hbsF, drop_takeWhile_length]
    exact (List.takeWhile_append_dropWhile _ _).symm
  have hbsFblank : ∀ c ∈ bsF, isBlankChar c = true := fun c hc => mem_takeWhile_pred hc
  by_cases hk0 : bsF.length = 0
  case pos => rw [if_pos hk0] at h; exact absurd h (by simp)
  rw [if_neg hk0] at h
  have hbsFne : bsF ≠ [] := fun he => hk0 (by simp [he])
  have hsplitLast := dropLast_append_getLastD bsF ' ' hbsFne
  have hlastmem : bsF.getLastD ' ' ∈ bsF := by
    have hm := List.mem_append_right (a := bsF.getLastD ' ') bsF.dropLast
      (List.mem_singleton_self _)
    rwa [hsplitLast] at hm
  have hdropLastmem : ∀ c ∈ bsF.dropLast, c ∈ bsF := by
    intro c hc
    have hm := List.mem_append_left [bsF.getLastD ' '] hc
    rwa [hsplitLast] at hm
  have hdropLastne : 2 ≤ bsF.length → bsF.dropLast ≠ [] := by
    intro h2 he
    have := congrArg List.length he
    simp [List.length_dropLast] at this
    omega
  cases hrest : t0.drop bsF.length with
  | nil =>
    rw [hrest] at h
    have h' : (if 2 ≤ bsF.length then some [bsF.getLastD ' '] else none) = some n := h
    by_cases h2 : 2 ≤ bsF.length
    · rw [if_pos h2, Option.some_inj] at h'
      refine ⟨?_, bsF.dropLast, [], ?_, hdropLastne h2, fun c hc => hbsFblank c (hdropLastmem c hc),
        Or.inl rfl⟩
      · intro c hc
        rw [← h'] at hc
        simp only [List.mem_singleton] at hc
        subst hc
        exact hb _ (hbsFblank _ hlastmem)
      · rw [hs, ht0split, hrest, ← h']
        conv_lhs => rw [← hsplitLast]
        simp [List.append_assoc]
    · rw [if_neg h2] at h'
      exact absurd h' (by simp)
  | cons c rest =>
    rw [hrest] at h
    have h' : (if stop c then (if 2 ≤ bsF.length then some [bsF.getLastD ' '] else none)
        else some ((c :: rest).takeWhile (fun x => !stop x))) = some n := h
    by_cases hstop : stop c = true
    · rw [if_pos hstop] at h'
      by_cases h2 : 2 ≤ bsF.length
      · rw [if_pos h2, Option.some_inj] at h'
        refine ⟨?_, bsF.dropLast, c :: rest, ?_, hdropLastne h2,
          fun x hx => hbsFblank x (hdropLastmem x hx), Or.inr ⟨c, rest, rfl, hstop⟩⟩
        · intro x hx
          rw [← h'] at hx
          simp only [List.mem_singleton] at hx
          subst hx
          exact hb _ (hbsFblank _ hlastmem)
        · rw [hs, ht0split, hrest, ← h']
          conv_lhs => rw [← hsplitLast]
          simp [List.append_assoc]
      · rw [if_neg h2] at h'
        exact absurd h' (by simp)
    · rw [if_neg hstop, Option.some_inj] at h'
      have hcsplit : c :: rest
          = (c :: rest).takeWhile (fun x => !stop x)
            ++ (c :: rest).dropWhile (fun x => !stop x) :=
        (List.takeWhile_append_dropWhile _ _).symm
      refine ⟨?_, bsF, (c :: rest).dropWhile (fun x => !stop x), ?_, hbsFne, hbsFblank, ?_⟩
      · intro x hx
        rw [← h'] at hx
        have := mem_takeWhile_pred hx
        simpa using this
      · rw [hs, ht0split, hrest, ← h']
        conv_lhs => rw [hcsplit]
        simp [List.append_assoc]
      · cases hdw : (c :: rest).dropWhile (fun x => !stop x) with
        | nil => exact Or.inl rfl
        | cons c' t' =>
          refine Or.inr ⟨c', t', rfl, ?_⟩
          have := head?_dropWhile_false (l := c :: rest) (p := fun x => !stop x)
            (by rw [hdw]; rfl)
          simpa using this

/-- Amended claim C8: in every recognized declaration the captured name
follows the keyword and a nonempty blank run and extends up to — stopping
at — the first `'('` for the plugin's `def` pattern, and the first `'('` or
`':'` for the plugin's `class` pattern and both ftplugin patterns;
whitespace never terminates the capture (so `def f ():` yields the name
`f` followed by a space). -/
theorem C8_name_capture_stops_at_delimiters :
    (∀ (l n : Line),
      SimplePythonTagsParser.classify l = some (SimplePythonTagsParser.Kw.defKw, n) →
      (∀ c ∈ n, (c == '(') = false) ∧
      ∃ bs t, SimplePythonTagsParser.contentOf l = ("def".toList) ++ bs ++ n ++ t ∧
        bs ≠ [] ∧ (∀ c ∈ bs, isBlankChar c = true) ∧
        (t = [] ∨ ∃ c t', t = c :: t' ∧ (c == '(') = true)) ∧
    (∀ (l n : Line),
      SimplePythonTagsParser.classify l = some (SimplePythonTagsParser.Kw.classKw, n) →
      (∀ c ∈ n, (c == '(' || c == ':') = false) ∧
      ∃ bs t, SimplePythonTagsParser.contentOf l = ("class".toList) ++ bs ++ n ++ t ∧
        bs ≠ [] ∧ (∀ c ∈ bs, isBlankChar c = true) ∧
        (t = [] ∨ ∃ c t', t = c :: t' ∧ (c == '(' || c == ':') = true)) ∧
    ∀ (l : Line) (kwStr : String) (n : Line),
      EvenSimplerPythonTagsParser.classify l = some (kwStr, n) →
      (∀ c ∈ n, (c == '(' || c == ':') = false) ∧
      ∃ bs t, l.dropWhile pyIsSpace = (kwStr.toList) ++ bs ++ n ++ t ∧
        bs ≠ [] ∧ (∀ c ∈ bs, isBlankChar c = true) ∧
        (t = [] ∨ ∃ c t', t = c :: t' ∧ (c == '(' || c == ':') = true) := by
  have hbD : ∀ c : Char, isBlankChar c = true → (c == '(') = false := by
    intro c hc
    rcases (by simpa [isBlankChar] using hc : c = ' ' ∨ c = '\t') with h | h <;> subst h <;> decide
  have hbC : ∀ c : Char, isBlankChar c = true → (c == '(' || c == ':') = false := by
    intro c hc
    rcases (by simpa [isBlankChar] using hc : c = ' ' ∨ c = '\t') with h | h <;> subst h <;> decide
  refine ⟨?_, ?_, ?_⟩
  · intro l n hc
    unfold SimplePythonTagsParser.classify at hc
    cases h1 : kwCapture ("class".toList) (fun c => c == '(' || c == ':')
        (SimplePythonTagsParser.contentOf l) with
    | some m =>
      rw [h1] at hc
      exact absurd hc (by simp)
    | none =>
      rw [h1] at hc
      have hc' : (match kwCapture ("def".toList) (fun c => c == '(')
          (SimplePythonTagsParser.contentOf l) with
        | some n => some (SimplePythonTagsParser.Kw.defKw, n)
        | none => none) = some (SimplePythonTagsParser.Kw.defKw, n) := hc
      cases h2 : kwCapture ("def".toList) (fun c => c == '(')
          (SimplePythonTagsParser.contentOf l) with
      | none =>
        rw [h2] at hc'
        exact absurd hc' (by simp)
      | some m =>
        rw [h2] at hc'
        have hm : m = n := by simpa using hc'
        subst hm
        exact kwCapture_sound hbD h2
  · intro l n hc
    unfold SimplePythonTagsParser.classify at hc
    cases h1 : kwCapture ("class".toList) (fun c => c == '(' || c == ':')
        (SimplePythonTagsParser.contentOf l) with
    | some m =>
      rw [h1] at hc
      have hm : m = n := by simpa using hc
      subst hm
      exact kwCapture_sound hbC h1
    | none =>
      rw [h1] at hc
      have hc' : (match kwCapture ("def".toList) (fun c => c == '(')
          (SimplePythonTagsParser.contentOf l) with
        | some n => some (SimplePythonTagsParser.Kw.defKw, n)
        | none => none) = some (SimplePythonTagsParser.Kw.classKw, n) := hc
      cases h2 : kwCapture ("def".toList) (fun c => c == '(')
          (SimplePythonTagsParser.contentOf l) with
      | none =>
        rw [h2] at hc'
        exact absurd hc' (by simp)
      | some m =>
        rw [h2] at hc'
        exact absurd hc' (by simp)
  · intro l kwStr n hc
    unfold EvenSimplerPythonTagsParser.classify at hc
    have hc0 : (match kwCapture ("def".toList) (fun c => c == '(' || c == ':')
        (l.dropWhile pyIsSpace) with
      | some n => some ("def", n)
      | none =>
        match kwCapture ("class".toList) (fun c => c == '(' || c == ':')
            (l.dropWhile pyIsSpace) with
        | some n => some ("class", n)
        | none => none) = some (kwStr, n) := hc
    cases h1 : kwCapture ("def".toList) (fun c => c == '(' || c == ':')
        (l.dropWhile pyIsSpace) with
    | some m =>
      rw [h1] at hc0
      have hp : kwStr = "def" ∧ m = n := by
        have := Option.some_inj.mp hc0
        exact ⟨(Prod.mk.injEq _ _ _ _ ▸ this).1.symm, (Prod.mk.injEq _ _ _ _ ▸ this).2⟩
      obtain ⟨hk, hm⟩ := hp
      subst hk
      subst hm
      exact kwCapture_sound hbC h1
    | none =>
      rw [h1] at hc0
      have hc' : (match kwCapture ("class".toList) (fun c => c == '(' || c == ':')
          (l.dropWhile pyIsSpace) with
        | some n => some ("class", n)
        | none => none) = some (kwStr, n) := hc0
      cases h2 : kwCapture ("class".toList) (fun c => c == '(' || c == ':')
          (l.dropWhile pyIsSpace) with
      | none =>
        rw [h2] at hc'
        exact absurd hc' (by simp)
      | some m =>
        rw [h2] at hc'
        have hp : kwStr = "class" ∧ m = n := by
          have := Option.some_inj.mp hc'
          exact ⟨(Prod.mk.injEq _ _ _ _ ▸ this).1.symm, (Prod.mk.injEq _ _ _ _ ▸ this).2⟩
        obtain ⟨hk, hm⟩ := hp
        subst hk
        subst hm
        exact kwCapture_sound hbC h2

/-- Witness for C8 at `def f ():`: the captured name is `f` followed by a
space, stopped by the `'('`. -/
theorem C8_name_capture_witness :
    (∀ c ∈ (['f', ' '] : Line), (c == '(') = false) ∧
    ∃ bs t, SimplePythonTagsParser.contentOf ("def f ():".toList)
        = ("def".toList) ++ bs ++ (['f', ' '] : Line) ++ t ∧
      bs ≠ [] ∧ (∀ c ∈ bs, isBlankChar c = true) ∧
      (t = [] ∨ ∃ c t', t = c :: t' ∧ (c == '(') = true) :=
  C8_name_capture_stops_at_delimiters.1 ("def f ():".toList) ['f', ' '] (by decide)

/-- Counterexample to claim C8 as stated: on `def f ():` both parsers
capture the name `f ` (with the trailing space); the capture does not stop
at whitespace. -/
theorem C8_counterexample_space_in_name :
    SimplePythonTagsParser.classify ("def f ():".toList)
        = some (SimplePythonTagsParser.Kw.defKw, ['f', ' ']) ∧
    EvenSimplerPythonTagsParser.classify ("def f ():".toList) = some ("def", ['f', ' ']) ∧
    (['f', ' '] : Line) ≠ ['f'] := by
  refine ⟨by decide, by decide, by decide⟩

/-! ### Validation window (claim C2) -/

theorem getD_of_get? {α : Type} {l : List α} {j : Nat} {x : α} (d : α)
    (h : l.get? j = some x) : l.getD j d = x := by
  rw [List.getD_eq_getElem?_getD, ← List.get?_eq_getElem?, h]
  rfl

theorem validate_eq_all (lines : List Line) (ind : Nat) :
    ∀ (idxs : List Nat), (∀ j ∈ idxs, j < lines.length) →
      validate lines ind idxs
        = .ok (idxs.all (fun j => !lineInvalidates (lines.getD j []) ind)) := by
  intro idxs
  induction idxs with
  | nil => intro _; rfl
  | cons j rest ih =>
    intro hb
    have hj : j < lines.length := hb j (by simp)
    cases hq : lines.get? j with
    | none =>
      exfalso
      have := List.get?_eq_none.mp hq
      omega
    | some x =>
      have hxd : lines.getD j [] = x := getD_of_get? [] hq
      have hstep : validate lines ind (j :: rest)
          = if lineInvalidates x ind then .ok false else validate lines ind rest := by
        simp only [validate, hq]
      have hall : (j :: rest).all (fun j' => !lineInvalidates (lines.getD j' []) ind)
          = ((!lineInvalidates x ind)
            && rest.all (fun j' => !lineInvalidates (lines.getD j' []) ind)) := by
        simp only [List.all_cons]
        rw [hxd]
      rw [hstep, hall]
      cases hi : lineInvalidates x ind with
      | true => simp [hi]
      | false =>
        simp only [hi, if_false, Bool.not_false, Bool.true_and]
        exact ih (fun j' hj' => hb j' (by simp [hj']))

theorem alistGet_isSome_of_mem_fst {α : Type} {d : List (Nat × α)} {k : Nat}
    (h : k ∈ d.map Prod.fst) : (alistGet d k).isSome = true := by
  induction d with
  | nil => simp at h
  | cons p d ih =>
    obtain ⟨k', v⟩ := p
    by_cases hk : k = k'
    · simp [alistGet, hk]
    · simp only [List.map_cons, List.mem_cons] at h
      rcases h with h | h
      · exact absurd h hk
      · simp only [alistGet, if_neg hk]
        exact ih h

theorem mem_pyRange_lt {a b j : Nat} (h : j ∈ pyRange a b) : a ≤ j ∧ j < b := by
  unfold pyRange at h
  have := List.mem_range'_1.mp h
  omega

theorem candidateLoop_eq_amended (lines : List Line) (tlns : List Nat)
    (tags : List (Nat × PythonTag)) (row : Nat)
    (hrow : row ≤ lines.length)
    (hwf : ∀ idx ln, tlns.get? idx = some ln → (alistGet tags ln).isSome = true) :
    ∀ i : Nat, i ≤ tlns.length →
      candidateLoop lines tlns tags row i = .ok (c2AmendedLoop lines tlns tags row i) := by
  intro i
  induction i with
  | zero => intro _; rfl
  | succ i ih =>
    intro hi
    have hlt : i < tlns.length := hi
    obtain ⟨ln, hln⟩ : ∃ ln, tlns.get? i = some ln :=
      ⟨tlns.get ⟨i, hlt⟩, List.get?_eq_get hlt⟩
    obtain ⟨tag, htag⟩ : ∃ tag, alistGet tags ln = some tag := by
      have hws := hwf i ln hln
      cases halist : alistGet tags ln with
      | none => rw [halist] at hws; simp at hws
      | some t => exact ⟨t, rfl⟩
    have hrange : ∀ j ∈ pyRange (ln + 1) row, j < lines.length := by
      intro j hj
      have := mem_pyRange_lt hj
      omega
    simp only [candidateLoop, c2AmendedLoop, hln, htag]
    rw [validate_eq_all lines tag.indent_level _ hrange]
    cases hall : (pyRange (ln + 1) row).all
        (fun j => !lineInvalidates (lines.getD j []) tag.indent_level) with
    | true => simp [hall]
    | false =>
      simp only [hall, if_false]
      exact ih (Nat.le_of_lt hlt)

theorem gnliLoop_le :
    ∀ (rest : List Nat) (row : Nat) (idx nLn nIdx : Int),
      nIdx + 1 ≤ idx → gnliLoop row rest idx nLn nIdx + 1 ≤ idx + rest.length := by
  intro rest
  induction rest with
  | nil =>
    intro row idx nLn nIdx h
    simpa [gnliLoop] using h
  | cons ln rest ih =>
    intro row idx nLn nIdx h
    simp only [gnliLoop]
    by_cases hbr : (row : Int) ≤ (ln : Int)
    · rw [if_pos hbr]
      by_cases hupd : nLn < (ln : Int) ∧ (ln : Int) ≤ (row : Int)
      · rw [if_pos hupd]
        simp only [List.length_cons]
        omega
      · rw [if_neg hupd]
        simp only [List.length_cons]
        omega
    · rw [if_neg hbr]
      by_cases hupd : nLn < (ln : Int) ∧ (ln : Int) ≤ (row : Int)
      · rw [if_pos hupd, if_pos hupd]
        have := ih row (idx + 1) (ln : Int) idx (by omega)
        simp only [List.length_cons]
        omega
      · rw [if_neg hupd, if_neg hupd]
        have := ih row (idx + 1) nLn nIdx (by omega)
        simp only [List.length_cons]
        omega

theorem get_nearest_line_index_bound (row : Nat) (tlns : List Nat) :
    (get_nearest_line_index row tlns + 1).toNat ≤ tlns.length := by
  have := gnliLoop_le tlns row 0 (-1) (-1) (by omega)
  unfold get_nearest_line_index
  omega

theorem takeWhile_length_eq_iff_all {α : Type} {p : α → Bool} {l : List α} :
    (l.takeWhile p).length = l.length ↔ ∀ x ∈ l, p x = true := by
  constructor
  · intro h x hx
    have hpre : l.takeWhile p <+: l := List.takeWhile_prefix p
    have : l.takeWhile p = l := List.IsPrefix.eq_of_length hpre h
    exact mem_takeWhile_pred (this ▸ hx)
  · intro h
    rw [takeWhile_of_all h]

theorem lineInvalidates_iff (l : Line) (ind : Nat) :
    lineInvalidates l ind = true ↔
      ¬ stripIsEmpty l = true ∧ firstContentChar l ≠ some '#' ∧ pyIndentWidth l ≤ ind := by
  by_cases h0 : l.length = 0
  · have hl : l = [] := List.eq_nil_of_length_eq_zero h0
    subst hl
    simp [lineInvalidates, stripIsEmpty]
  · have hrw : lineInvalidates l ind
        = (if (l.takeWhile pyIsSpace).length = l.length then false
           else
             match (l.drop (l.takeWhile pyIsSpace).length).head? with
             | some c => if c = '#' then false else decide (pyIndentWidth l ≤ ind)
             | none => false) := by
      unfold lineInvalidates
      rw [if_neg h0]
      rfl
    rw [hrw]
    by_cases hws : (l.takeWhile pyIsSpace).length = l.length
    · rw [if_pos hws]
      have hstrip : stripIsEmpty l = true :=
        List.all_eq_true.mpr (takeWhile_length_eq_iff_all.mp hws)
      simp [hstrip]
    · rw [if_neg hws]
      have hstrip : stripIsEmpty l = false := by
        cases hsi : stripIsEmpty l with
        | false => rfl
        | true =>
          exact absurd (takeWhile_length_eq_iff_all.mpr (List.all_eq_true.mp hsi)) hws
      rw [drop_takeWhile_length]
      cases hh : (l.dropWhile pyIsSpace).head? with
      | none =>
        exfalso
        have hdw : l.dropWhile pyIsSpace = [] := List.head?_eq_none_iff.mp hh
        have : l.takeWhile pyIsSpace = l := by
          have := List.takeWhile_append_dropWhile pyIsSpace l
          rwa [hdw, List.append_nil] at this
        exact hws (by rw [this])
      | some c =>
        have hfc : firstContentChar l = some c := hh
        by_cases hc : c = '#'
        · subst hc
          simp [hfc, hstrip]
        · have hred : (match (some c : Option Char) with
              | some c => if c = '#' then false else decide (pyIndentWidth l ≤ ind)
              | none => false) = if c = '#' then false else decide (pyIndentWidth l ≤ ind) := rfl
          rw [hred, if_neg hc]
          simp [hfc, hstrip, hc]

/-- Amended claim C2: the resolver's validation examines exactly the buffer
indices strictly between the candidate's 1-based declaration line and the
cursor row (`xrange(candidate + 1, row)`, i.e. 1-based lines `candidate + 2`
through `row`); a line affects validity exactly when it is not
blank, does not open with `'#'`, and its indentation is at most the
candidate's — in which case the candidate is rejected and the previous
entry of `tag_line_numbers` is retried; a completed walk confirms the
candidate. -/
theorem C2_resolver_window_corrected :
    (∀ (lines : List Line) (row : Nat),
      row ≤ lines.length →
      find_tag_core lines row
          (SimplePythonTagsParser.get_tags (vim_buffer_iterator lines)).1
          (SimplePythonTagsParser.get_tags (vim_buffer_iterator lines)).2
        = .ok (c2AmendedLoop lines
            (SimplePythonTagsParser.get_tags (vim_buffer_iterator lines)).1
            (SimplePythonTagsParser.get_tags (vim_buffer_iterator lines)).2 row
            (get_nearest_line_index row
              (SimplePythonTagsParser.get_tags (vim_buffer_iterator lines)).1 + 1).toNat)) ∧
    ∀ (l : Line) (ind : Nat),
      lineInvalidates l ind = true ↔
        ¬ stripIsEmpty l = true ∧ firstContentChar l ≠ some '#' ∧ pyIndentWidth l ≤ ind := by
  constructor
  · intro lines row hrow
    unfold find_tag_core
    refine candidateLoop_eq_amended lines _ _ row hrow ?_ _
      (get_nearest_line_index_bound _ _)
    intro idx ln hln
    apply alistGet_isSome_of_mem_fst
    have hkeys := (SPTagsInv_scanFrom SimplePythonTagsParser.initState
      (vim_buffer_iterator lines)
      ⟨List.chain'_nil, rfl, by simp [SimplePythonTagsParser.initState]⟩).2.1
    rw [show (SimplePythonTagsParser.get_tags (vim_buffer_iterator lines)).2.map Prod.fst
        = (SimplePythonTagsParser.get_tags (vim_buffer_iterator lines)).1 from hkeys]
    exact List.get?_mem hln
  · exact lineInvalidates_iff

/-- Witness for C2: the amended-window resolver agrees with `find_tag`'s
core on the three-line example buffer. -/
theorem C2_resolver_window_witness :
    find_tag_core exC2 3
        (SimplePythonTagsParser.get_tags (vim_buffer_iterator exC2)).1
        (SimplePythonTagsParser.get_tags (vim_buffer_iterator exC2)).2
      = .ok (c2AmendedLoop exC2
          (SimplePythonTagsParser.get_tags (vim_buffer_iterator exC2)).1
          (SimplePythonTagsParser.get_tags (vim_buffer_iterator exC2)).2 3
          (get_nearest_line_index 3
            (SimplePythonTagsParser.get_tags (vim_buffer_iterator exC2)).1 + 1).toNat) :=
  C2_resolver_window_corrected.1 exC2 3 (by decide)

/-- Counterexample to claim C2 as stated: on the buffer `def f():` /
`x = 1` / `    y = 2` with the cursor on line 3, the 1-based line 2 lies
strictly between the candidate's line 1 and the cursor and invalidates it
(indentation 0), so the claimed walk yields no tag — but `find_tag` returns
the tag `f`, because its walk skips that line (it examines lines 3..3). -/
theorem C2_counterexample_window_off_by_one :
    find_tag exC2 3 = some ⟨"function", "f".toList, "f".toList, 1, 0⟩ ∧
    c2ClaimResolve exC2 3 = none ∧
    lineInvalidates (exC2.getD 1 []) 0 = true := by
  refine ⟨by decide, by decide, by decide⟩

/-! ### Out-of-range and blank-region behaviour (claim C9) -/

/-- Amended claim C9: a cursor row beyond the end of the buffer resolves to
`None` in the ftplugin resolver (the out-of-range access ends the search);
in the plugin resolver the same situation raises an out-of-range access
that the catch-all handler absorbs — it reports instead of propagating, and
no tag is produced.  A cursor in a fully blank trailing region does not
fault either: resolution continues from the nearest preceding non-blank
line and returns its enclosing tag when one exists. -/
theorem C9_out_of_range_and_blank_tail :
    (∀ (lines : List Line) (tags : List (Nat × PythonTag)) (row : Nat),
      lines.length < row → ft_get_tag_resolve lines tags row = none) ∧
    find_tag_core exShort 4
        (SimplePythonTagsParser.get_tags (vim_buffer_iterator exShort)).1
        (SimplePythonTagsParser.get_tags (vim_buffer_iterator exShort)).2 = .error () ∧
    find_tag exShort 4 = none ∧
    find_tag exC9 5 = some ⟨"function", "f".toList, "f".toList, 2, 0⟩ ∧
    ft_get_tag_resolve exC9 (EvenSimplerPythonTagsParser.get_tags exC9) 5
      = some ⟨"function", "f".toList, "f".toList, 1, 0⟩ := by
  refine ⟨?_, by rfl, by rfl, by rfl, by rfl⟩
  intro lines tags row hrow
  obtain ⟨rest, hhead⟩ : ∃ rest, startIndices row lines.length
      = ((row : Int) - 1) :: rest := by
    unfold startIndices
    rw [List.range_succ_eq_map]
    exact ⟨(List.map Nat.succ (List.range (row + lines.length))).map
        (fun i : Nat => (row : Int) - 1 - (i : Int)), by
      rw [List.map_cons]
      simp⟩
  have hget : pyGet lines ((row : Int) - 1) = none := by
    unfold pyGet
    rw [if_pos (by omega : (0 : Int) ≤ (row : Int) - 1)]
    apply List.get?_eq_none.mpr
    omega
  unfold ft_get_tag_resolve
  rw [hhead]
  simp [findContentLine, hget]

/-- Witness for C9: a cursor row past a two-line buffer resolves to none. -/
theorem C9_out_of_range_witness :
    exShort.length < 3 ∧ ft_get_tag_resolve exShort [] 3 = none :=
  ⟨by decide, C9_out_of_range_and_blank_tail.1 exShort [] 3 (by decide)⟩

/-- Counterexample to claim C9 as stated: with the cursor on line 5, inside
the fully blank trailing region of the buffer `⟨blank⟩` / `def f():` /
`    pass` / `⟨blank⟩` / `⟨blank⟩`, both resolvers return the tag `f` — not
`None` as the claim requires. -/
theorem C9_counterexample_blank_trailing_region :
    ft_get_tag_resolve exC9 (EvenSimplerPythonTagsParser.get_tags exC9) 5
        = some ⟨"function", "f".toList, "f".toList, 1, 0⟩ ∧
    find_tag exC9 5 = some ⟨"function", "f".toList, "f".toList, 2, 0⟩ ∧
    ¬ find_tag exC9 5 = none := by
  refine ⟨by decide, by decide, by decide⟩

/-! ### Parser equivalence (claim C10) -/

theorem takeWhile_congr_mem {α : Type} {p q : α → Bool} :
    ∀ {l : List α}, (∀ x ∈ l, p x = q x) → l.takeWhile p = l.takeWhile q := by
  intro l
  induction l with
  | nil => intro _; rfl
  | cons a t ih =>
    intro h
    have ha := h a (by simp)
    by_cases hp : p a
    · rw [List.takeWhile_cons, List.takeWhile_cons, if_pos hp, if_pos (ha ▸ hp)]
      rw [ih (fun x hx => h x (by simp [hx]))]
    · rw [List.takeWhile_cons, List.takeWhile_cons, if_neg hp, if_neg (ha ▸ hp)]

theorem dropWhile_congr_mem {α : Type} {p q : α → Bool} :
    ∀ {l : List α}, (∀ x ∈ l, p x = q x) → l.dropWhile p = l.dropWhile q := by
  intro l
  induction l with
  | nil => intro _; rfl
  | cons a t ih =>
    intro h
    have ha := h a (by simp)
    by_cases hp : p a
    · rw [List.dropWhile_cons, List.dropWhile_cons, if_pos hp, if_pos (ha ▸ hp)]
      exact ih (fun x hx => h x (by simp [hx]))
    · rw [List.dropWhile_cons, List.dropWhile_cons, if_neg hp, if_neg (ha ▸ hp)]

theorem mem_of_mem_dropWhile {α : Type} {p : α → Bool} :
    ∀ {l : List α} {x : α}, x ∈ l.dropWhile p → x ∈ l := by
  intro l
  induction l with
  | nil => intro x hx; exact hx
  | cons a t ih =>
    intro x hx
    by_cases hp : p a
    · rw [List.dropWhile_cons, if_pos hp] at hx
      exact List.mem_cons_of_mem a (ih hx)
    · rw [List.dropWhile_cons, if_neg hp] at hx
      exact hx

theorem takeWhile_append_single_neg {α : Type} {p : α → Bool} {c : α}
    (hc : p c = false) : ∀ (l : List α), (l ++ [c]).takeWhile p = l.takeWhile p := by
  intro l
  induction l with
  | nil => simp [List.takeWhile_cons, hc]
  | cons a t ih =>
    by_cases hp : p a
    · rw [List.cons_append, List.takeWhile_cons, List.takeWhile_cons, if_pos hp, if_pos hp, ih]
    · rw [List.cons_append, List.takeWhile_cons, List.takeWhile_cons, if_neg hp, if_neg hp]

theorem drop_append_single {α : Type} (c : α) :
    ∀ (l : List α) (k : Nat), k ≤ l.length → (l ++ [c]).drop k = l.drop k ++ [c] := by
  intro l
  induction l with
  | nil =>
    intro k hk
    have : k = 0 := Nat.le_zero.mp hk
    subst this
    rfl
  | cons a t ih =>
    intro k hk
    cases k with
    | zero => rfl
    | succ k =>
      simp only [List.cons_append, List.drop_succ_cons]
      exact ih k (by simpa using hk)

theorem compute_indentation_no_tabs {ic : Line} (h : ∀ c ∈ ic, c ≠ '\t') :
    SimplePythonTagsParser.compute_indentation_level ic = ic.length := by
  induction ic with
  | nil => rfl
  | cons a t ih =>
    have hfold : ∀ (l : List Char) (acc : Nat),
        (∀ c ∈ l, c ≠ '\t') →
        l.foldl (fun acc c => if c = '\t' then acc + SimplePythonTagsParser.TABSIZE else acc + 1) acc
          = acc + l.length := by
      intro l
      induction l with
      | nil => intro acc _; simp
      | cons b u ihf =>
        intro acc hb
        rw [List.foldl_cons, if_neg (hb b (by simp))]
        rw [ihf (acc + 1) (fun c hc => hb c (by simp [hc]))]
        simp only [List.length_cons]
        omega
    have := hfold (a :: t) 0 h
    simpa [SimplePythonTagsParser.compute_indentation_level] using this

theorem classify_sp_newline (l : Line) :
    SimplePythonTagsParser.classify (l ++ ['\n']) = SimplePythonTagsParser.classify l := by
  have hind : SimplePythonTagsParser.indentCharsOf (l ++ ['\n'])
      = SimplePythonTagsParser.indentCharsOf l :=
    takeWhile_append_single_neg (by decide) l
  have hcontent : SimplePythonTagsParser.contentOf (l ++ ['\n'])
      = SimplePythonTagsParser.contentOf l := by
    unfold SimplePythonTagsParser.contentOf
    rw [hind]
    rw [drop_append_single '\n' l (SimplePythonTagsParser.indentCharsOf l).length
        (by unfold SimplePythonTagsParser.indentCharsOf; exact length_takeWhile_le' _ _)]
    exact takeWhile_append_single_neg (by decide) _
  unfold SimplePythonTagsParser.classify
  rw [hcontent]

theorem indentCharsOf_newline (l : Line) :
    SimplePythonTagsParser.indentCharsOf (l ++ ['\n'])
      = SimplePythonTagsParser.indentCharsOf l :=
  takeWhile_append_single_neg (by decide) l

theorem kwCapture_none_of_head_ne {stop : Char → Bool} {c c' : Char} {kw' r : Line}
    (hne : c ≠ c') : kwCapture (c' :: kw') stop (c :: r) = none := by
  have hcond : ¬ ((c :: r).take (c' :: kw').length = c' :: kw') := by
    rw [List.length_cons, List.take_succ_cons]
    intro h
    injection h with h1 _
    exact hne h1
  unfold kwCapture
  rw [if_neg hcond]

/-- The capture on a well-formed declaration body: the name is exactly the
maximal delimiter-free run after the blanks. -/
theorem kwCapture_of_declOK (kwl s : Line) (stop : Char → Bool) (isClass : Bool)
    (hagree : ∀ c ∈ s, isBlankChar c = (c == ' '))
    (hsub : ∀ c, stop c = true → (c == '(' || c == ':') = true)
    (hterm : ∀ c, (c == '(' || (isClass && c == ':')) = true → stop c = true)
    (hok : declOKB s isClass = true) :
    kwCapture kwl stop (kwl ++ ' ' :: s)
      = some ((s.dropWhile (fun c => c == ' ')).takeWhile
          (fun c => !(c == '(' || c == ':' || c == ' '))) := by
  set good : Char → Bool := fun c => !(c == '(' || c == ':' || c == ' ') with hgood
  set s' : Line := s.dropWhile (fun c => c == ' ') with hs'def
  set n : Line := s'.takeWhile good with hndef
  have hok' : (!n.isEmpty && n.all (fun c => !(c == '.'))
      && (match s'.drop n.length with
          | c :: _ => c == '(' || (isClass && c == ':')
          | [] => false)) = true := hok
  have h1 := (Bool.and_eq_true _ _).mp hok'
  have hne := ((Bool.and_eq_true _ _).mp h1.1).1
  have hnext := h1.2
  have hnne : n ≠ [] := by
    intro he
    rw [he] at hne
    simp at hne
  have hgood_nostop : ∀ x, good x = true → (!stop x) = true := by
    intro x hx
    by_cases hsx : stop x = true
    · exfalso
      have hor := hsub x hsx
      rw [hgood] at hx
      simp only [Bool.not_eq_true'] at hx
      cases hxa : (x == '(') with
      | true => simp [hxa] at hx
      | false =>
        cases hxb : (x == ':') with
        | true => simp [hxa, hxb] at hx
        | false => simp [hxa, hxb] at hor
    · simp [(by simpa using hsx : stop x = false)]
  have htake : (kwl ++ ' ' :: s).take kwl.length = kwl := List.take_left kwl (' ' :: s)
  have hdrop : (kwl ++ ' ' :: s).drop kwl.length = ' ' :: s := List.drop_left kwl (' ' :: s)
  have hsp : s.takeWhile isBlankChar = s.takeWhile (fun c => c == ' ') :=
    takeWhile_congr_mem hagree
  have hbs : (' ' :: s).takeWhile isBlankChar
      = ' ' :: s.takeWhile (fun c => c == ' ') := by
    rw [show (' ' :: s).takeWhile isBlankChar = ' ' :: s.takeWhile isBlankChar from rfl, hsp]
  have hdrop2 : (' ' :: s).drop (' ' :: s.takeWhile (fun c => c == ' ')).length
      = s.dropWhile (fun c => c == ' ') := by
    show s.drop (s.takeWhile (fun c => c == ' ')).length = s.dropWhile (fun c => c == ' ')
    exact drop_takeWhile_length _ _
  rw [← hs'def] at hdrop2
  simp only [kwCapture]
  rw [if_pos htake, hdrop, hbs]
  rw [if_neg (by simp : ¬ (' ' :: s.takeWhile (fun c => c == ' ')).length = 0)]
  rw [hdrop2]
  cases hs'c : s' with
  | nil =>
    exfalso
    apply hnne
    rw [hndef, hs'c]
    rfl
  | cons hc htl =>
    have hgoodhc : good hc = true := by
      by_cases hg : good hc = true
      · exact hg
      · exfalso
        apply hnne
        rw [hndef, hs'c, List.takeWhile_cons,
          if_neg (by simpa using hg)]
    have hstophc : stop hc = false := by
      have := hgood_nostop hc hgoodhc
      simpa using this
    have hsplit : s' = n ++ s'.drop n.length := by
      conv_lhs => rw [← List.take_append_drop n.length s']
      congr 1
      rw [hndef]
      exact (List.prefix_iff_eq_take.mp (List.takeWhile_prefix good)).symm
    cases hnx : s'.drop n.length with
    | nil =>
      exfalso
      rw [hnx] at hnext
      simp at hnext
    | cons c rest =>
      rw [hnx] at hnext
      have hnext' : (c == '(' || (isClass && c == ':')) = true := hnext
      have hstopc : stop c = true := hterm c hnext'
      have hfinal : (hc :: htl).takeWhile (fun x => !stop x) = n := by
        rw [← hs'c, hsplit, hnx]
        refine takeWhile_append_of_stop _ rest ?_ (by simp [hstopc])
        intro x hx
        exact hgood_nostop x (mem_takeWhile_pred (hndef ▸ hx))
      simp only [hstophc, Bool.false_eq_true, if_false]
      rw [hfinal]

theorem declOKB_dots {s : Line} {isClass : Bool} (hok : declOKB s isClass = true) :
    ((s.dropWhile (fun c => c == ' ')).takeWhile
        (fun c => !(c == '(' || c == ':' || c == ' '))).all (fun c => !(c == '.')) = true := by
  have hok' : (!((s.dropWhile (fun c => c == ' ')).takeWhile
        (fun c => !(c == '(' || c == ':' || c == ' '))).isEmpty
      && ((s.dropWhile (fun c => c == ' ')).takeWhile
        (fun c => !(c == '(' || c == ':' || c == ' '))).all (fun c => !(c == '.'))
      && (match (s.dropWhile (fun c => c == ' ')).drop
            (((s.dropWhile (fun c => c == ' ')).takeWhile
              (fun c => !(c == '(' || c == ':' || c == ' '))).length) with
          | c :: _ => c == '(' || (isClass && c == ':')
          | [] => false)) = true := hok
  exact ((Bool.and_eq_true _ _).mp ((Bool.and_eq_true _ _).mp hok').1).2

theorem classify_agree {l : Line} (h : okLineB l = true) :
    (SimplePythonTagsParser.classify l).map (fun kn => (kwName kn.1, kn.2))
      = EvenSimplerPythonTagsParser.classify l
    ∧ SimplePythonTagsParser.compute_indentation_level (SimplePythonTagsParser.indentCharsOf l)
      = EvenSimplerPythonTagsParser.indentLevelOf l
    ∧ ∀ kwStr n, EvenSimplerPythonTagsParser.classify l = some (kwStr, n) →
        n.all (fun c => !(c == '.')) = true := by
  have hsplit := (Bool.and_eq_true _ _).mp h
  have hall := List.all_eq_true.mp hsplit.1
  have hifpart : (if (l.dropWhile (fun c => c == ' ')).take 6 = ("class ".toList)
      then declOKB ((l.dropWhile (fun c => c == ' ')).drop 6) true
      else if (l.dropWhile (fun c => c == ' ')).take 4 = ("def ".toList)
      then declOKB ((l.dropWhile (fun c => c == ' ')).drop 4) false
      else true) = true := hsplit.2
  have hhash : ∀ c ∈ l, (c == '#') = false := by
    intro c hc
    have hx := (Bool.and_eq_true _ _).mp (hall c hc)
    simpa using hx.1
  have hspce : ∀ c ∈ l, pyIsSpace c = true → c = ' ' := by
    intro c hc hp
    have hx := ((Bool.and_eq_true _ _).mp (hall c hc)).2
    rw [hp] at hx
    simpa using hx
  have hagreeBlank : ∀ c ∈ l, isBlankChar c = (c == ' ') := by
    intro c hc
    by_cases hc' : c = ' '
    · subst hc'; rfl
    · have ht : c ≠ '\t' := by
        intro he
        subst he
        exact hc' (hspce _ hc (by decide))
      unfold isBlankChar
      rw [beq_false_of_ne hc', beq_false_of_ne ht]
      rfl
  have hagreePy : ∀ c ∈ l, pyIsSpace c = (c == ' ') := by
    intro c hc
    by_cases hc' : c = ' '
    · subst hc'; rfl
    · have hfalse : pyIsSpace c = false := by
        cases hpc : pyIsSpace c with
        | false => rfl
        | true => exact absurd (hspce c hc hpc) hc'
      rw [hfalse]
      exact (beq_false_of_ne hc').symm
  have hIndEq : SimplePythonTagsParser.compute_indentation_level
      (SimplePythonTagsParser.indentCharsOf l) = EvenSimplerPythonTagsParser.indentLevelOf l := by
    have hnotab : ∀ c ∈ SimplePythonTagsParser.indentCharsOf l, c ≠ '\t' := by
      intro c hc he
      subst he
      have hcl : '\t' ∈ l := List.takeWhile_subset _ hc
      have hx := hagreeBlank _ hcl
      exact absurd hx (by decide)
    rw [compute_indentation_no_tabs hnotab]
    rfl
  have hdwPy : l.dropWhile pyIsSpace = l.dropWhile (fun c => c == ' ') :=
    dropWhile_congr_mem hagreePy
  have hcontent : SimplePythonTagsParser.contentOf l = l.dropWhile (fun c => c == ' ') := by
    unfold SimplePythonTagsParser.contentOf SimplePythonTagsParser.indentCharsOf
    rw [drop_takeWhile_length, dropWhile_congr_mem hagreeBlank]
    apply takeWhile_of_all
    intro c hc
    have hcl : c ∈ l := List.dropWhile_subset _ hc
    have h1 : (c == '\n') = false := by
      refine beq_false_of_ne ?_
      intro he
      subst he
      exact absurd (hspce _ hcl (by decide)) (by decide)
    rw [h1, hhash c hcl]
    rfl
  have hmem_r : ∀ c ∈ l.dropWhile (fun c => c == ' '), c ∈ l :=
    fun c hc => List.dropWhile_subset _ hc
  have hbstopC : ∀ c : Char, isBlankChar c = true → (c == '(' || c == ':') = false := by
    intro c hc
    rcases (by simpa [isBlankChar] using hc : c = ' ' ∨ c = '\t') with hy | hy <;>
      subst hy <;> decide
  have hbstopD : ∀ c : Char, isBlankChar c = true → (c == '(') = false := by
    intro c hc
    rcases (by simpa [isBlankChar] using hc : c = ' ' ∨ c = '\t') with hy | hy <;>
      subst hy <;> decide
  by_cases hcl6 : (l.dropWhile (fun c => c == ' ')).take 6 = ("class ".toList)
  · -- class declaration line
    have hok : declOKB ((l.dropWhile (fun c => c == ' ')).drop 6) true = true := by
      rw [if_pos hcl6] at hifpart
      exact hifpart
    have hr : l.dropWhile (fun c => c == ' ')
        = "class".toList ++ ' ' :: (l.dropWhile (fun c => c == ' ')).drop 6 := by
      conv_lhs => rw [← List.take_append_drop 6 (l.dropWhile (fun c => c == ' '))]
      rw [hcl6]
      rfl
    have hagree_s : ∀ c ∈ (l.dropWhile (fun c => c == ' ')).drop 6, isBlankChar c = (c == ' ') :=
      fun c hc => hagreeBlank c (hmem_r c (List.drop_subset _ _ hc))
    have hcapC := kwCapture_of_declOK ("class".toList)
      ((l.dropWhile (fun c => c == ' ')).drop 6) (fun c => c == '(' || c == ':') true
      hagree_s (fun c hh => hh) (fun c hh => by simpa using hh) hok
    have hcapC' : kwCapture ("class".toList) (fun c => c == '(' || c == ':')
        (l.dropWhile (fun c => c == ' '))
        = some ((((l.dropWhile (fun c => c == ' ')).drop 6).dropWhile
            (fun c => c == ' ')).takeWhile (fun c => !(c == '(' || c == ':' || c == ' '))) := by
      conv_lhs => rw [hr]
      exact hcapC
    have hspc : SimplePythonTagsParser.classify l
        = some (SimplePythonTagsParser.Kw.classKw,
            (((l.dropWhile (fun c => c == ' ')).drop 6).dropWhile (fun c => c == ' ')).takeWhile
              (fun c => !(c == '(' || c == ':' || c == ' '))) := by
      unfold SimplePythonTagsParser.classify
      rw [hcontent, hcapC']
    have hftdef : kwCapture ("def".toList) (fun c => c == '(' || c == ':')
        (l.dropWhile (fun c => c == ' ')) = none := by
      rw [hr]
      exact kwCapture_none_of_head_ne (by decide)
    have hftc : EvenSimplerPythonTagsParser.classify l
        = some ("class",
            (((l.dropWhile (fun c => c == ' ')).drop 6).dropWhile (fun c => c == ' ')).takeWhile
              (fun c => !(c == '(' || c == ':' || c == ' '))) := by
      have hrfl : EvenSimplerPythonTagsParser.classify l
          = (match kwCapture ("def".toList) (fun c => c == '(' || c == ':')
              (l.dropWhile pyIsSpace) with
            | some n => some ("def", n)
            | none =>
              match kwCapture ("class".toList) (fun c => c == '(' || c == ':')
                  (l.dropWhile pyIsSpace) with
              | some n => some ("class", n)
              | none => none) := rfl
      rw [hrfl, hdwPy, hftdef, hcapC']
    refine ⟨?_, hIndEq, ?_⟩
    · rw [hspc, hftc]
      rfl
    · intro kwStr n hn
      rw [hftc] at hn
      have hkn : n = (((l.dropWhile (fun c => c == ' ')).drop 6).dropWhile
          (fun c => c == ' ')).takeWhile (fun c => !(c == '(' || c == ':' || c == ' ')) := by
        have := Option.some_inj.mp hn
        exact ((Prod.mk.injEq _ _ _ _ ▸ this).2).symm
      rw [hkn]
      exact declOKB_dots hok
  · by_cases hdf4 : (l.dropWhile (fun c => c == ' ')).take 4 = ("def ".toList)
    · -- def declaration line
      have hok : declOKB ((l.dropWhile (fun c => c == ' ')).drop 4) false = true := by
        rw [if_neg hcl6, if_pos hdf4] at hifpart
        exact hifpart
      have hr : l.dropWhile (fun c => c == ' ')
          = "def".toList ++ ' ' :: (l.dropWhile (fun c => c == ' ')).drop 4 := by
        conv_lhs => rw [← List.take_append_drop 4 (l.dropWhile (fun c => c == ' '))]
        rw [hdf4]
        rfl
      have hagree_s : ∀ c ∈ (l.dropWhile (fun c => c == ' ')).drop 4,
          isBlankChar c = (c == ' ') :=
        fun c hc => hagreeBlank c (hmem_r c (List.drop_subset _ _ hc))
      have hcapD := kwCapture_of_declOK ("def".toList)
        ((l.dropWhile (fun c => c == ' ')).drop 4) (fun c => c == '(') false
        hagree_s (fun c hh => by simp [hh]) (fun c hh => by simpa using hh) hok
      have hcapDC := kwCapture_of_declOK ("def".toList)
        ((l.dropWhile (fun c => c == ' ')).drop 4) (fun c => c == '(' || c == ':') false
        hagree_s (fun c hh => hh)
        (fun c hh => by
          have hh' : (c == '(') = true := by simpa using hh
          simp [hh']) hok
      have hspcls : kwCapture ("class".toList) (fun c => c == '(' || c == ':')
          (l.dropWhile (fun c => c == ' ')) = none := by
        rw [hr]
        exact kwCapture_none_of_head_ne (by decide)
      have hcapD' : kwCapture ("def".toList) (fun c => c == '(')
          (l.dropWhile (fun c => c == ' '))
          = some ((((l.dropWhile (fun c => c == ' ')).drop 4).dropWhile
              (fun c => c == ' ')).takeWhile (fun c => !(c == '(' || c == ':' || c == ' '))) := by
        conv_lhs => rw [hr]
        exact hcapD
      have hcapDC' : kwCapture ("def".toList) (fun c => c == '(' || c == ':')
          (l.dropWhile (fun c => c == ' '))
          = some ((((l.dropWhile (fun c => c == ' ')).drop 4).dropWhile
              (fun c => c == ' ')).takeWhile (fun c => !(c == '(' || c == ':' || c == ' '))) := by
        conv_lhs => rw [hr]
        exact hcapDC
      have hspc : SimplePythonTagsParser.classify l
          = some (SimplePythonTagsParser.Kw.defKw,
              (((l.dropWhile (fun c => c == ' ')).drop 4).dropWhile (fun c => c == ' ')).takeWhile
                (fun c => !(c == '(' || c == ':' || c == ' '))) := by
        unfold SimplePythonTagsParser.classify
        rw [hcontent, hspcls, hcapD']
      have hftc : EvenSimplerPythonTagsParser.classify l
          = some ("def",
              (((l.dropWhile (fun c => c == ' ')).drop 4).dropWhile (fun c => c == ' ')).takeWhile
                (fun c => !(c == '(' || c == ':' || c == ' '))) := by
        have hrfl : EvenSimplerPythonTagsParser.classify l
            = (match kwCapture ("def".toList) (fun c => c == '(' || c == ':')
                (l.dropWhile pyIsSpace) with
              | some n => some ("def", n)
              | none =>
                match kwCapture ("class".toList) (fun c => c == '(' || c == ':')
                    (l.dropWhile pyIsSpace) with
                | some n => some ("class", n)
                | none => none) := rfl
        rw [hrfl, hdwPy, hcapDC']
      refine ⟨?_, hIndEq, ?_⟩
      · rw [hspc, hftc]
        rfl
      · intro kwStr n hn
        rw [hftc] at hn
        have hkn : n = (((l.dropWhile (fun c => c == ' ')).drop 4).dropWhile
            (fun c => c == ' ')).takeWhile (fun c => !(c == '(' || c == ':' || c == ' ')) := by
          have := Option.some_inj.mp hn
          exact ((Prod.mk.injEq _ _ _ _ ▸ this).2).symm
        rw [hkn]
        exact declOKB_dots hok
    · -- no declaration: every capture fails
      have hnotClass : ∀ stop : Char → Bool,
          (∀ c, isBlankChar c = true → stop c = false) →
          kwCapture ("class".toList) stop (l.dropWhile (fun c => c == ' ')) = none := by
        intro stop hb
        cases hcap : kwCapture ("class".toList) stop (l.dropWhile (fun c => c == ' ')) with
        | none => rfl
        | some m =>
          exfalso
          obtain ⟨_, bs, t, hdecomp, hbsne, hbsblank, _⟩ := kwCapture_sound hb hcap
          obtain ⟨b, bs', hbcons⟩ := List.exists_cons_of_ne_nil hbsne
          have hbmem : b ∈ l := by
            apply hmem_r
            rw [hdecomp, hbcons]
            simp
          have hbsp : b = ' ' := by
            have hblank := hbsblank b (by simp [hbcons])
            have hx := hagreeBlank b hbmem
            rw [hblank] at hx
            simpa using hx.symm
          apply hcl6
          rw [hdecomp, hbcons, hbsp]
          rfl
      have hnotDef : ∀ stop : Char → Bool,
          (∀ c, isBlankChar c = true → stop c = false) →
          kwCapture ("def".toList) stop (l.dropWhile (fun c => c == ' ')) = none := by
        intro stop hb
        cases hcap : kwCapture ("def".toList) stop (l.dropWhile (fun c => c == ' ')) with
        | none => rfl
        | some m =>
          exfalso
          obtain ⟨_, bs, t, hdecomp, hbsne, hbsblank, _⟩ := kwCapture_sound hb hcap
          obtain ⟨b, bs', hbcons⟩ := List.exists_cons_of_ne_nil hbsne
          have hbmem : b ∈ l := by
            apply hmem_r
            rw [hdecomp, hbcons]
            simp
          have hbsp : b = ' ' := by
            have hblank := hbsblank b (by simp [hbcons])
            have hx := hagreeBlank b hbmem
            rw [hblank] at hx
            simpa using hx.symm
          apply hdf4
          rw [hdecomp, hbcons, hbsp]
          rfl
      have hspc : SimplePythonTagsParser.classify l = none := by
        unfold SimplePythonTagsParser.classify
        rw [hcontent, hnotClass _ hbstopC, hnotDef _ hbstopD]
      have hftc : EvenSimplerPythonTagsParser.classify l = none := by
        have hrfl : EvenSimplerPythonTagsParser.classify l
            = (match kwCapture ("def".toList) (fun c => c == '(' || c == ':')
                (l.dropWhile pyIsSpace) with
              | some n => some ("def", n)
              | none =>
                match kwCapture ("class".toList) (fun c => c == '(' || c == ':')
                    (l.dropWhile pyIsSpace) with
                | some n => some ("class", n)
                | none => none) := rfl
        rw [hrfl, hdwPy, hnotDef _ hbstopC, hnotClass _ hbstopC]
      refine ⟨?_, hIndEq, ?_⟩
      · rw [hspc, hftc]
        rfl
      · intro kwStr n hn
        rw [hftc] at hn
        exact absurd hn (by simp)

theorem tagMatch_fields {p f : PythonTag} (h : tagMatch p f = true) :
    f.tag_type = p.tag_type ∧ f.name = p.name ∧ f.full_name = p.full_name
      ∧ f.line_number + 1 = p.line_number ∧ f.indent_level = p.indent_level := by
  unfold tagMatch at h
  simp only [Bool.and_eq_true, beq_iff_eq] at h
  exact ⟨h.1.1.1.1, h.1.1.1.2, h.1.1.2, h.1.2, h.2⟩

theorem tagMatch_intro {p f : PythonTag}
    (h1 : f.tag_type = p.tag_type) (h2 : f.name = p.name) (h3 : f.full_name = p.full_name)
    (h4 : f.line_number + 1 = p.line_number) (h5 : f.indent_level = p.indent_level) :
    tagMatch p f = true := by
  unfold tagMatch
  simp only [Bool.and_eq_true, beq_iff_eq]
  exact ⟨⟨⟨⟨h1, h2⟩, h3⟩, h4⟩, h5⟩

theorem stacksMatch_dropWhile (lvl : Nat) :
    ∀ {s f : List PythonTag}, stacksMatch s f = true →
      stacksMatch (s.dropWhile (fun t => decide (lvl ≤ t.indent_level)))
        (f.dropWhile (fun t => decide (lvl ≤ t.indent_level))) = true := by
  intro s
  induction s with
  | nil =>
    intro f h
    cases f with
    | nil => exact h
    | cons q qs => simp [stacksMatch] at h
  | cons p ps ih =>
    intro f h
    cases f with
    | nil => simp [stacksMatch] at h
    | cons q qs =>
      have h' := (Bool.and_eq_true _ _).mp h
      have hind := (tagMatch_fields h'.1).2.2.2.2
      by_cases hlv : lvl ≤ p.indent_level
      · have hq : lvl ≤ q.indent_level := by rw [hind]; exact hlv
        rw [show (p :: ps).dropWhile (fun t => decide (lvl ≤ t.indent_level))
            = ps.dropWhile (fun t => decide (lvl ≤ t.indent_level)) from by
          simp [List.dropWhile, hlv]]
        rw [show (q :: qs).dropWhile (fun t => decide (lvl ≤ t.indent_level))
            = qs.dropWhile (fun t => decide (lvl ≤ t.indent_level)) from by
          simp [List.dropWhile, hq]]
        exact ih h'.2
      · have hq : ¬ lvl ≤ q.indent_level := by rw [hind]; exact hlv
        rw [show (p :: ps).dropWhile (fun t => decide (lvl ≤ t.indent_level)) = p :: ps from by
          simp [List.dropWhile, hlv]]
        rw [show (q :: qs).dropWhile (fun t => decide (lvl ≤ t.indent_level)) = q :: qs from by
          simp [List.dropWhile, hq]]
        exact h

theorem entriesMatch_append {x y : Nat × PythonTag}
    (hx : (x.1 == y.1 + 1) = true) (ht : tagMatch x.2 y.2 = true) :
    ∀ {a b : List (Nat × PythonTag)}, entriesMatch a b = true →
      entriesMatch (a ++ [x]) (b ++ [y]) = true := by
  intro a
  induction a with
  | nil =>
    intro b h
    cases b with
    | nil =>
      obtain ⟨k, p⟩ := x
      obtain ⟨k', q⟩ := y
      simp only [List.nil_append]
      unfold entriesMatch
      rw [Bool.and_eq_true, Bool.and_eq_true]
      exact ⟨⟨hx, ht⟩, rfl⟩
    | cons bp bs =>
      obtain ⟨k', q⟩ := bp
      simp [entriesMatch] at h
  | cons ap asr ih =>
    intro b h
    cases b with
    | nil =>
      obtain ⟨k, p⟩ := ap
      simp [entriesMatch] at h
    | cons bp bs =>
      obtain ⟨k, p⟩ := ap
      obtain ⟨k', q⟩ := bp
      have h' := (Bool.and_eq_true _ _).mp h
      simp only [List.cons_append]
      unfold entriesMatch
      rw [Bool.and_eq_true]
      exact ⟨h'.1, ih h'.2⟩

theorem lastComponent_dotfree {n : Line} (h : ∀ c ∈ n, (c == '.') = false) :
    EvenSimplerPythonTagsParser.lastComponent n = n := by
  unfold EvenSimplerPythonTagsParser.lastComponent
  rw [takeWhile_of_all (by
    intro c hc
    rw [h c (List.mem_reverse.mp hc)]
    rfl)]
  exact List.reverse_reverse n

theorem lastComponent_append_dotfree {f n : Line} (h : ∀ c ∈ n, (c == '.') = false) :
    EvenSimplerPythonTagsParser.lastComponent (f ++ '.' :: n) = n := by
  unfold EvenSimplerPythonTagsParser.lastComponent
  have hrev : (f ++ '.' :: n).reverse = n.reverse ++ '.' :: f.reverse := by
    simp
  rw [hrev, takeWhile_append_of_stop _ f.reverse (by
      intro c hc
      rw [h c (List.mem_reverse.mp hc)]
      rfl) (by simp)]
  exact List.reverse_reverse n

theorem get_python_tag_line {stack : List PythonTag} {ln : Nat} {ic n : Line}
    {d : Option String → String} :
    (SimplePythonTagsParser.get_python_tag stack ln ic n d).1.line_number = ln := by
  cases h : SimplePythonTagsParser.popStack
      (SimplePythonTagsParser.compute_indentation_level ic) stack <;>
    simp [SimplePythonTagsParser.get_python_tag, h]

theorem stacksMatch_shapes {s f : List PythonTag} (h : stacksMatch s f = true) :
    (s = [] ∧ f = []) ∨
      ∃ p ps q qs, s = p :: ps ∧ f = q :: qs ∧ tagMatch p q = true
        ∧ stacksMatch ps qs = true := by
  cases s with
  | nil =>
    cases f with
    | nil => exact Or.inl ⟨rfl, rfl⟩
    | cons q qs => simp [stacksMatch] at h
  | cons p ps =>
    cases f with
    | nil => simp [stacksMatch] at h
    | cons q qs =>
      have h' := (Bool.and_eq_true _ _).mp h
      exact Or.inr ⟨p, ps, q, qs, rfl, rfl, h'.1, h'.2⟩

theorem equiv_step {sp : SimplePythonTagsParser.ScanState}
    {ft : EvenSimplerPythonTagsParser.ScanState} (l : Line) (hok : okLineB l = true)
    (hline : sp.line_number = ft.line_no + 1)
    (htags : entriesMatch sp.tags ft.tags = true)
    (hstack : stacksMatch sp.tags_stack ft.tags_stack = true) :
    (SimplePythonTagsParser.step sp (l ++ ['\n'])).line_number
        = (EvenSimplerPythonTagsParser.step ft l).line_no + 1
    ∧ entriesMatch (SimplePythonTagsParser.step sp (l ++ ['\n'])).tags
        (EvenSimplerPythonTagsParser.step ft l).tags = true
    ∧ stacksMatch (SimplePythonTagsParser.step sp (l ++ ['\n'])).tags_stack
        (EvenSimplerPythonTagsParser.step ft l).tags_stack = true := by
  obtain ⟨hcls, hind, hdots⟩ := classify_agree hok
  cases hft : EvenSimplerPythonTagsParser.classify l with
  | none =>
    have hsp0 : SimplePythonTagsParser.classify l = none := by
      rw [hft] at hcls
      exact Option.map_eq_none'.mp hcls
    have hsp' : SimplePythonTagsParser.classify (l ++ ['\n']) = none := by
      rw [classify_sp_newline]
      exact hsp0
    simp only [SimplePythonTagsParser.step, EvenSimplerPythonTagsParser.step, hsp', hft]
    exact ⟨by omega, htags, hstack⟩
  | some kn =>
    obtain ⟨kwStr, n⟩ := kn
    rw [hft] at hcls
    cases hspc : SimplePythonTagsParser.classify l with
    | none =>
      rw [hspc] at hcls
      simp at hcls
    | some kn' =>
      obtain ⟨kw, n'⟩ := kn'
      rw [hspc] at hcls
      simp only [Option.map_some'] at hcls
      have hp := Option.some_inj.mp hcls
      have hkw1 : kwName kw = kwStr := (Prod.mk.injEq _ _ _ _ ▸ hp).1
      have hn' : n' = n := (Prod.mk.injEq _ _ _ _ ▸ hp).2
      subst hn'
      subst hkw1
      have hsp' : SimplePythonTagsParser.classify (l ++ ['\n']) = some (kw, n') := by
        rw [classify_sp_newline]
        exact hspc
      have hdotsn : ∀ c ∈ n', (c == '.') = false := by
        intro c hc
        have hx := List.all_eq_true.mp (hdots (kwName kw) n' hft) c hc
        simpa using hx
      have hlvl : SimplePythonTagsParser.compute_indentation_level
          (SimplePythonTagsParser.indentCharsOf (l ++ ['\n']))
          = EvenSimplerPythonTagsParser.indentLevelOf l := by
        rw [indentCharsOf_newline]
        exact hind
      simp only [SimplePythonTagsParser.step, EvenSimplerPythonTagsParser.step, hsp', hft]
      set lvl := EvenSimplerPythonTagsParser.indentLevelOf l with hlvldef
      set dec := (match kw with
        | SimplePythonTagsParser.Kw.classKw => SimplePythonTagsParser.tag_class_type_deciding_method
        | SimplePythonTagsParser.Kw.defKw => SimplePythonTagsParser.tag_function_type_deciding_method)
        with hdec
      have hsnd := SimplePythonTagsParser.get_python_tag_snd sp.tags_stack sp.line_number
        (SimplePythonTagsParser.indentCharsOf (l ++ ['\n'])) n' dec
      rw [hlvl] at hsnd
      have hname := SimplePythonTagsParser.get_python_tag_name sp.tags_stack sp.line_number
        (SimplePythonTagsParser.indentCharsOf (l ++ ['\n'])) n' dec
      have hfull := SimplePythonTagsParser.get_python_tag_full_name sp.tags_stack sp.line_number
        (SimplePythonTagsParser.indentCharsOf (l ++ ['\n'])) n' dec
      rw [hlvl] at hfull
      have hindent := SimplePythonTagsParser.get_python_tag_indent sp.tags_stack sp.line_number
        (SimplePythonTagsParser.indentCharsOf (l ++ ['\n'])) n' dec
      rw [hlvl] at hindent
      have hpopft : EvenSimplerPythonTagsParser.popLoop lvl ft.tags_stack.length ft.tags_stack
          = ft.tags_stack.dropWhile (fun t => decide (lvl ≤ t.indent_level)) :=
        EvenSimplerPythonTagsParser.popLoop_eq_dropWhile _ _
      have hpop : stacksMatch
          (sp.tags_stack.dropWhile (fun t => decide (lvl ≤ t.indent_level)))
          (ft.tags_stack.dropWhile (fun t => decide (lvl ≤ t.indent_level))) = true :=
        stacksMatch_dropWhile lvl hstack
      -- the ftplugin tag on this line
      have htagmatch : tagMatch
          (SimplePythonTagsParser.get_python_tag sp.tags_stack sp.line_number
            (SimplePythonTagsParser.indentCharsOf (l ++ ['\n'])) n' dec).1
          { tag_type := EvenSimplerPythonTagsParser.get_tag_type (kwName kw)
              (EvenSimplerPythonTagsParser.popLoop lvl ft.tags_stack.length ft.tags_stack),
            name := EvenSimplerPythonTagsParser.lastComponent
              (EvenSimplerPythonTagsParser.get_full_name
                (EvenSimplerPythonTagsParser.popLoop lvl ft.tags_stack.length ft.tags_stack) n'),
            full_name := EvenSimplerPythonTagsParser.get_full_name
              (EvenSimplerPythonTagsParser.popLoop lvl ft.tags_stack.length ft.tags_stack) n',
            line_number := ft.line_no, indent_level := lvl } = true := by
        rw [hpopft]
        rcases stacksMatch_shapes hpop with ⟨hps, hqs⟩ | ⟨p, ps, q, qs, hps, hqs, hpq, _⟩
        · rw [hps] at hfull
          rw [hqs]
          simp only [List.head?_nil] at hfull
          refine tagMatch_intro ?_ ?_ ?_ ?_ ?_
          · show EvenSimplerPythonTagsParser.get_tag_type (kwName kw) [] = _
            cases kw with
            | classKw =>
              rw [show dec = SimplePythonTagsParser.tag_class_type_deciding_method from hdec]
              rw [SimplePythonTagsParser.get_python_tag_type_class]
              rfl
            | defKw =>
              rw [show dec = SimplePythonTagsParser.tag_function_type_deciding_method from hdec]
              have := SimplePythonTagsParser.get_python_tag_type_fun sp.tags_stack sp.line_number
                (SimplePythonTagsParser.indentCharsOf (l ++ ['\n'])) n'
              rw [hlvl, hps] at this
              rw [this]
              rfl
          · show EvenSimplerPythonTagsParser.lastComponent
              (EvenSimplerPythonTagsParser.get_full_name [] n') = _
            rw [hname]
            show EvenSimplerPythonTagsParser.lastComponent n' = n'
            exact lastComponent_dotfree hdotsn
          · show EvenSimplerPythonTagsParser.get_full_name [] n' = _
            rw [hfull]
            rfl
          · show ft.line_no + 1 = _
            rw [get_python_tag_line]
            omega
          · show lvl = _
            rw [hindent]
        · rw [hps] at hfull
          rw [hqs]
          simp only [List.head?_cons] at hfull
          have hfields := tagMatch_fields hpq
          refine tagMatch_intro ?_ ?_ ?_ ?_ ?_
          · show EvenSimplerPythonTagsParser.get_tag_type (kwName kw) (q :: qs) = _
            cases kw with
            | classKw =>
              rw [show dec = SimplePythonTagsParser.tag_class_type_deciding_method from hdec]
              rw [SimplePythonTagsParser.get_python_tag_type_class]
              rfl
            | defKw =>
              rw [show dec = SimplePythonTagsParser.tag_function_type_deciding_method from hdec]
              have hty := SimplePythonTagsParser.get_python_tag_type_fun sp.tags_stack sp.line_number
                (SimplePythonTagsParser.indentCharsOf (l ++ ['\n'])) n'
              rw [hlvl, hps] at hty
              rw [hty]
              show (if q.tag_type = "class" then "method" else "function") = _
              rw [hfields.1]
              rfl
          · show EvenSimplerPythonTagsParser.lastComponent
              (EvenSimplerPythonTagsParser.get_full_name (q :: qs) n') = _
            rw [hname]
            show EvenSimplerPythonTagsParser.lastComponent (q.full_name ++ '.' :: n') = n'
            exact lastComponent_append_dotfree hdotsn
          · show EvenSimplerPythonTagsParser.get_full_name (q :: qs) n' = _
            rw [hfull]
            show q.full_name ++ '.' :: n' = p.full_name ++ '.' :: n'
            rw [hfields.2.2.1]
          · show ft.line_no + 1 = _
            rw [get_python_tag_line]
            omega
          · show lvl = _
            rw [hindent]
      refine ⟨by omega, ?_, ?_⟩
      · refine entriesMatch_append (by simp [hline]) htagmatch htags
      · rw [hsnd, hpopft]
        unfold stacksMatch
        rw [Bool.and_eq_true]
        refine ⟨?_, hpop⟩
        have := htagmatch
        rw [hpopft] at this
        exact this

theorem equiv_scan (ls : List Line) :
    ∀ {sp : SimplePythonTagsParser.ScanState} {ft : EvenSimplerPythonTagsParser.ScanState},
      (∀ l ∈ ls, okLineB l = true) →
      sp.line_number = ft.line_no + 1 →
      entriesMatch sp.tags ft.tags = true →
      stacksMatch sp.tags_stack ft.tags_stack = true →
      entriesMatch (SimplePythonTagsParser.scanFrom sp (vim_buffer_iterator ls)).tags
        (EvenSimplerPythonTagsParser.scanFrom ft ls).tags = true := by
  induction ls with
  | nil =>
    intro sp ft _ _ htags _
    exact htags
  | cons l ls ih =>
    intro sp ft hok hline htags hstack
    have hstep := equiv_step l (hok l (by simp)) hline htags hstack
    show entriesMatch
        (SimplePythonTagsParser.scanFrom
          (SimplePythonTagsParser.step sp (l ++ ['\n'])) (vim_buffer_iterator ls)).tags
        (EvenSimplerPythonTagsParser.scanFrom
          (EvenSimplerPythonTagsParser.step ft l) ls).tags = true
    exact ih (fun x hx => hok x (by simp [hx])) hstep.1 hstep.2.1 hstep.2.2

/-- Claim C10 (amended): on sources whose whitespace is made of ASCII
spaces, that contain no `'#'`, and in which every declaration's name is
dot-free and immediately followed by `'('` (or, for a class, `':'`), the
plugin parser `SimplePythonTagsParser.get_tags` (fed through
`vim_buffer_iterator`) and the ftplugin parser
`EvenSimplerPythonTagsParser.get_tags` produce matching tag sequences:
equal type, name, full name and indentation entry by entry, with the
ftplugin 0-based line number one below the plugin 1-based one.  The
amendment strengthens the original premise `followed by '(' or ':'` to
exclude a `def` name followed by `':'` alone, which the two parsers
capture differently. -/
theorem C10_parser_equivalence_amended (lines : List Line)
    (h : ∀ l ∈ lines, okLineB l = true) :
    entriesMatch (SimplePythonTagsParser.get_tags (vim_buffer_iterator lines)).2
      (EvenSimplerPythonTagsParser.get_tags lines) = true := by
  unfold SimplePythonTagsParser.get_tags EvenSimplerPythonTagsParser.get_tags
  exact equiv_scan lines h rfl rfl rfl

theorem C10_parser_equivalence_witness :
    (∀ l ∈ exC10, okLineB l = true) ∧
      entriesMatch (SimplePythonTagsParser.get_tags (vim_buffer_iterator exC10)).2
        (EvenSimplerPythonTagsParser.get_tags exC10) = true :=
  ⟨by decide, C10_parser_equivalence_amended exC10 (by decide)⟩

theorem C10_counterexample_colon_def :
    (∀ l ∈ exC10bad, l.all (fun c => !(c == '#') && (!pyIsSpace c || c == ' ')) = true) ∧
      exC10bad = [("def f".toList ++ [':'])] ∧
      entriesMatch (SimplePythonTagsParser.get_tags (vim_buffer_iterator exC10bad)).2
        (EvenSimplerPythonTagsParser.get_tags exC10bad) = false := by
  refine ⟨by decide, by decide, by decide⟩
